import Mathlib

/-!
# Phase 4 log aggregator (`solutions/phase4/main.go`)

A shallow embedding of the Go program: the per-file decode loop
(`processFile`), the fan-in merge of `printResults`, the number formatter
(`formatNumber`) and the worker pool of `processFiles`, the last one as a
step function per goroutine over an explicit pool state.

Conventions.
* Go `int` values are counts of records here; they are embedded as `Int`
  without wrap-around (a count is bounded by the number of bytes read).
* The Go array `[600]int` is a total function on `Fin 600`; an index
  expression `a[i]` with `i : Int` goes through an explicit bounds test, and
  a failed test is the Go run-time panic `index out of range`.
* The directory (`*os.Root`) and the JSON stream decoder are collaborators
  outside the repository: a directory maps a file name that opens to the
  finite sequence of records of that file, each one malformed or well formed.
  The sonic stream decoder records the error of a failed `Decode`, and from
  then on `More()` reports false.
-/

namespace Phase4

/-! ## Data model -/

/-- The struct `OptimizedResult`: file name, record total, and the fixed
table `[600]int` of per-status counters. -/
structure OptimizedResult where
  FileName : String
  TotalCount : Int
  StatusCounts : Fin 600 → Int

/-- Modelled from the spec: the type `logparser.LogEntry` is declared in
`pkg/logparser`, which is not embedded here; the decode loop reads only its
integer field `Status`. A record of a file is either malformed, so that the
call `decoder.Decode(&entry)` that reaches it fails, or well formed, so that
the call leaves an entry whose `Status` is the given integer. -/
inductive DecodeOutcome where
  | failure : DecodeOutcome
  | record (Status : Int) : DecodeOutcome
  deriving DecidableEq, Repr

/-- A directory opened with `os.OpenRoot`: `none` when `root.Open` fails for
the name, otherwise the records of the file in stream order. -/
abbrev Root := String → Option (List DecodeOutcome)

/-- How a call of `processFile` ends: `(result, nil)`, `(nil, err)`, or the
run-time panic raised by `result.StatusCounts[entry.Status]` for an index
outside the array. -/
inductive FileOutcome where
  | ok (result : OptimizedResult) : FileOutcome
  | openError : FileOutcome
  | panicIndex (Status : Int) : FileOutcome

/-- The result a caller gets from `processFile` when the call returns one. -/
def FileOutcome.toOption : FileOutcome → Option OptimizedResult
  | .ok result => some result
  | .openError => none
  | .panicIndex _ => none

/-! ## `processFile` -/

/-- The zero-initialised result built before the decode loop. -/
def newResult (filename : String) : OptimizedResult :=
  { FileName := filename, TotalCount := 0, StatusCounts := fun _ => 0 }

/-- One iteration of `for decoder.More() { ... }`: a failed `Decode`
continues with the state untouched; a decoded record bumps `TotalCount` and
then indexes `StatusCounts` with `entry.Status`, which panics outside
`[0, 600)`. -/
def decodeStep (result : OptimizedResult) :
    DecodeOutcome → Except Int OptimizedResult
  | .failure => .ok result
  | .record status =>
    if h : 0 ≤ status ∧ status < 600 then
      let i : Fin 600 := ⟨status.toNat, by omega⟩
      .ok { result with
            TotalCount := result.TotalCount + 1
            StatusCounts :=
              Function.update result.StatusCounts i (result.StatusCounts i + 1) }
    else .error status

/-- A failed decode, or a record whose status indexes the table. -/
def DecodeOutcome.inRange : DecodeOutcome → Bool
  | .failure => true
  | .record status => decide (0 ≤ status ∧ status < 600)

/-- A successful decode. -/
def DecodeOutcome.isRecord : DecodeOutcome → Bool
  | .failure => false
  | .record _ => true

/-- The call `decoder.More()`: `failed` tells whether an earlier `Decode` has
failed, `pending` are the records not yet read. The stream decoder keeps the
error of a failed `Decode` and then reports no more input; otherwise it
reports whether a record is left. -/
def More (failed : Bool) (pending : List DecodeOutcome) : Bool :=
  !failed && !pending.isEmpty

/-- The loop `for decoder.More() { ... }`. Each round decodes the next record;
after a failed `Decode` the `continue` leads back to the test `decoder.More()`,
now with the error recorded. A panic ends the loop at once. -/
def decodeLoop : Bool → List DecodeOutcome → OptimizedResult →
    Except Int OptimizedResult
  | _, [], result => .ok result
  | failed, o :: rest, result =>
    if More failed (o :: rest) then
      match decodeStep result o with
      | .ok result' => decodeLoop (!o.isRecord) rest result'
      | .error status => .error status
    else .ok result

/-- The function `processFile(root, filename)`. -/
def processFile (root : Root) (filename : String) : FileOutcome :=
  match root filename with
  | none => .openError
  | some stream =>
    match decodeLoop false stream (newResult filename) with
    | .ok result => .ok result
    | .error status => .panicIndex status

/-- The records the loop decodes: those before the first malformed one. -/
def decoded (stream : List DecodeOutcome) : List DecodeOutcome :=
  stream.takeWhile DecodeOutcome.isRecord

/-! ## `printResults` -/

/-- Body of the inner loop of the merge: slot `status` of the per-file table
is added to the global table when it is positive. -/
def mergeStatus (result : OptimizedResult) (totalStatusCounts : Fin 600 → Int)
    (status : Fin 600) : Fin 600 → Int :=
  let count := result.StatusCounts status
  if count > 0 then
    Function.update totalStatusCounts status (totalStatusCounts status + count)
  else totalStatusCounts

/-- The values `printResults` accumulates before printing. -/
structure Totals where
  totalRequests : Int
  totalStatusCounts : Fin 600 → Int

/-- Body of `for _, result := range results`. -/
def mergeResult (acc : Totals) (result : OptimizedResult) : Totals :=
  { totalRequests := acc.totalRequests + result.TotalCount
    totalStatusCounts :=
      (List.finRange 600).foldl (mergeStatus result) acc.totalStatusCounts }

/-- The merge at the head of `printResults`: `totalRequests` and
`totalStatusCounts` after the loop over `results`. -/
def printResults (results : List OptimizedResult) : Totals :=
  results.foldl mergeResult { totalRequests := 0, totalStatusCounts := fun _ => 0 }

/-- The loop `for status := 400; status < 600; status++` that sums the
merged table into `errorCount`. -/
def errorCount (totalStatusCounts : Fin 600 → Int) : Int :=
  ((List.finRange 600).filter (fun status => 400 ≤ status.val)).foldl
    (fun acc status => acc + totalStatusCounts status) 0

/-- The quotient `float64(errorCount) / float64(totalRequests) * 100` of
`printResults`, taken in exact rational arithmetic. -/
def errorRate (t : Totals) : ℚ :=
  (errorCount t.totalStatusCounts : ℚ) / (t.totalRequests : ℚ) * 100

/-! ## `formatNumber` -/

/-- The loop `for i, c := range s` of `formatNumber`: `len` is `len(s)`, `i`
the index of `c`, the list the characters not yet visited, `result` the
string built so far. The decimal string is ASCII, so byte and character
indices agree. -/
def formatLoop (len : Nat) : Nat → List Char → String → String
  | _, [], result => result
  | i, c :: rest, result =>
    let result := if i > 0 ∧ (len - i) % 3 = 0 then result ++ "," else result
    formatLoop len (i + 1) rest (result ++ String.singleton c)

/-- The function `formatNumber(n)`; `toString n` is the decimal string that
`fmt.Sprintf("%d", n)` produces. -/
def formatNumber (n : Int) : String :=
  let s := toString n
  formatLoop s.length 0 s.data ""

/-- What the loop of `formatNumber` appends for the characters still to visit;
`inner` tells whether the first of them has a character before it. -/
def formatTail (inner : Bool) : List Char → List Char
  | [] => []
  | c :: rest =>
    (if inner = true ∧ (rest.length + 1) % 3 = 0 then [','] else []) ++
      c :: formatTail true rest

/-! ## The three-file scenario -/

/-- The directory of the three-file scenario: records of statuses
200, 200, 404 in the first file, 200, 500, 500 in the second, none in the
third; any other name fails to open. -/
def scenarioRoot : Root := fun name =>
  if name = "access_1.json" then some [.record 200, .record 200, .record 404]
  else if name = "access_2.json" then some [.record 200, .record 500, .record 500]
  else if name = "access_3.json" then some []
  else none

/-- The per-file results of the scenario, in the order of the files. -/
def scenarioResults : List OptimizedResult :=
  ["access_1.json", "access_2.json", "access_3.json"].filterMap
    (fun filename => (processFile scenarioRoot filename).toOption)

/-! ## `processFiles`: the worker pool

The goroutines of `processFiles` are the caller (`main` below), the
`numWorkers` workers started with `wg.Go`, and the goroutine that waits on the
wait group and closes `results`. Each has one step function on the pool
state; a step returns `none` when the goroutine is blocked on a channel, has
finished, or the process has died of a panic. A buffered channel is its
buffer, its capacity and its closed flag. The pool is modelled for
`numWorkers ≥ 1`, where `jobs` is buffered. -/

/-- Where a worker stands in
`for filename := range jobs { result, err := processFile(...); ...; results <- result }`. -/
inductive WorkerState where
  | receiving : WorkerState
  | processing (filename : String) : WorkerState
  | sending (result : OptimizedResult) : WorkerState
  | exited : WorkerState

/-- Where the caller stands: in the loop `jobs <- filename` (at `close(jobs)`
once the list is empty), at `go func() { wg.Wait(); close(results) }()`, in
the loop `for result := range results`, or past `return resultList`. -/
inductive MainState where
  | feeding (rest : List String) : MainState
  | spawning : MainState
  | draining : MainState
  | returned : MainState
  deriving DecidableEq

/-- The goroutine `wg.Wait(); close(results)`. -/
inductive CloserState where
  | notStarted : CloserState
  | waiting : CloserState
  | closed : CloserState
  deriving DecidableEq

/-- The state of a run of `processFiles`. -/
structure Pool where
  jobsCap : Nat
  resultsCap : Nat
  main : MainState
  jobs : List String
  jobsClosed : Bool
  workers : List WorkerState
  closer : CloserState
  results : List OptimizedResult
  resultsClosed : Bool
  resultList : List OptimizedResult
  panicked : Option Int

/-- The worker has left its `range jobs` loop. -/
def WorkerState.isExited : WorkerState → Bool
  | .exited => true
  | _ => false

/-- The state after the channels are made and the workers started. -/
def Pool.init (files : List String) (numWorkers : Nat) : Pool :=
  { jobsCap := numWorkers
    resultsCap := files.length
    main := .feeding files
    jobs := []
    jobsClosed := false
    workers := List.replicate numWorkers .receiving
    closer := .notStarted
    results := []
    resultsClosed := false
    resultList := []
    panicked := none }

/-- One step of the caller. -/
def stepMain (p : Pool) : Option Pool :=
  match p.main with
  | .feeding (filename :: rest) =>
    if p.jobs.length < p.jobsCap then
      some { p with jobs := p.jobs ++ [filename], main := .feeding rest }
    else none
  | .feeding [] => some { p with jobsClosed := true, main := .spawning }
  | .spawning => some { p with closer := .waiting, main := .draining }
  | .draining =>
    match p.results with
    | result :: rest =>
      some { p with results := rest, resultList := p.resultList ++ [result] }
    | [] => if p.resultsClosed then some { p with main := .returned } else none
  | .returned => none

/-- One step of worker `i`. -/
def stepWorker (root : Root) (i : Nat) (p : Pool) : Option Pool :=
  match p.workers[i]? with
  | none => none
  | some .receiving =>
    match p.jobs with
    | filename :: rest =>
      some { p with jobs := rest, workers := p.workers.set i (.processing filename) }
    | [] =>
      if p.jobsClosed then some { p with workers := p.workers.set i .exited } else none
  | some (.processing filename) =>
    match processFile root filename with
    | .ok result => some { p with workers := p.workers.set i (.sending result) }
    | .openError => some { p with workers := p.workers.set i .receiving }
    | .panicIndex status => some { p with panicked := some status }
  | some (.sending result) =>
    if p.results.length < p.resultsCap then
      some { p with results := p.results ++ [result],
                    workers := p.workers.set i .receiving }
    else none
  | some .exited => none

/-- One step of the goroutine that closes `results`. -/
def stepCloser (p : Pool) : Option Pool :=
  match p.closer with
  | .waiting =>
    if p.workers.all WorkerState.isExited then
      some { p with resultsClosed := true, closer := .closed }
    else none
  | _ => none

/-- The goroutines a scheduler can pick. -/
inductive Action where
  | main : Action
  | worker (i : Nat) : Action
  | closer : Action
  deriving DecidableEq, Repr

/-- One step of the chosen goroutine; nothing runs after a panic. -/
def step (root : Root) (a : Action) (p : Pool) : Option Pool :=
  if p.panicked.isSome then none
  else
    match a with
    | .main => stepMain p
    | .worker i => stepWorker root i p
    | .closer => stepCloser p

/-- The run under a schedule; a pick that cannot step is passed over. -/
def runSchedule (root : Root) : List Action → Pool → Pool
  | [], p => p
  | a :: rest, p =>
    match step root a p with
    | some q => runSchedule root rest q
    | none => runSchedule root rest p

/-- The function `processFiles(root, files, numWorkers)` under a schedule of its
goroutines: the returned `resultList`, or `none` when the caller has not
returned by the end of the schedule. -/
def processFiles (root : Root) (files : List String) (numWorkers : Nat)
    (schedule : List Action) : Option (List OptimizedResult) :=
  let p := runSchedule root schedule (Pool.init files numWorkers)
  if p.main = .returned then some p.resultList else none

/-- An execution: `Run root p schedule q` when the goroutines picked by
`schedule` can each step, in turn, and lead from `p` to `q`. -/
inductive Run (root : Root) : Pool → List Action → Pool → Prop where
  | nil (p : Pool) : Run root p [] p
  | cons {p q r : Pool} {a : Action} {schedule : List Action} :
      step root a p = some q → Run root q schedule r → Run root p (a :: schedule) r

/-- The results `processFile` returns for a list of files, in order. -/
def okResults (root : Root) (files : List String) : List OptimizedResult :=
  files.filterMap (fun filename => (processFile root filename).toOption)

/-- The files the caller has not yet put on `jobs`. -/
def MainState.remaining : MainState → List String
  | .feeding rest => rest
  | _ => []

/-- Steps left for a worker, the file it holds included. -/
def WorkerState.potential : WorkerState → Nat
  | .receiving => 1
  | .processing _ => 4
  | .sending _ => 3
  | .exited => 0

/-- Steps left for the caller, the files it still holds excluded. -/
def MainState.potential : MainState → Nat
  | .feeding _ => 4
  | .spawning => 3
  | .draining => 1
  | .returned => 0

/-- A bound on the number of steps a run can still take. -/
def Pool.potential (p : Pool) : Nat :=
  5 * p.main.remaining.length + 4 * p.jobs.length +
    (p.workers.map WorkerState.potential).sum + p.results.length +
    p.main.potential + (if p.closer = .closed then 0 else 1) +
    (if p.panicked.isSome then 0 else 1)

/-- The call `processFile(root, filename)` panics. -/
def panics (root : Root) (filename : String) : Bool :=
  match processFile root filename with
  | .panicIndex _ => true
  | _ => false

/-- The results a worker accounts for: the one it holds, or the one its file
will give. -/
def WorkerState.value (root : Root) : WorkerState → Multiset OptimizedResult
  | .processing filename => (okResults root [filename] : List OptimizedResult)
  | .sending result => {result}
  | _ => 0

/-- All results of the run, delivered or still to come, as a multiset. -/
def Pool.value (root : Root) (p : Pool) : Multiset OptimizedResult :=
  (p.resultList : Multiset OptimizedResult) + (p.results : Multiset OptimizedResult) +
    (p.workers.map (WorkerState.value root)).sum +
    (okResults root p.jobs : Multiset OptimizedResult) +
    (okResults root p.main.remaining : Multiset OptimizedResult)

/-- Whether the file a worker holds makes `processFile` panic. -/
def WorkerState.bad (root : Root) : WorkerState → Nat
  | .processing filename => [filename].countP (panics root)
  | _ => 0

/-- The number of files not yet processed on which `processFile` panics. -/
def Pool.bad (root : Root) (p : Pool) : Nat :=
  p.main.remaining.countP (panics root) + p.jobs.countP (panics root) +
    (p.workers.map (WorkerState.bad root)).sum

/-- The control state of the caller agrees with the channels and the closing
goroutine. -/
def Pool.mainOk (p : Pool) : Prop :=
  match p.main with
  | .feeding _ => p.jobsClosed = false ∧ p.closer = .notStarted
  | .spawning => p.jobsClosed = true ∧ p.closer = .notStarted
  | .draining => p.jobsClosed = true ∧ p.closer ≠ .notStarted
  | .returned =>
    p.jobsClosed = true ∧ p.closer = .closed ∧ p.results = [] ∧ p.panicked = none

/-- The invariant of a run of `processFiles(root, files, numWorkers)`. -/
structure Inv (root : Root) (files : List String) (numWorkers : Nat) (p : Pool) :
    Prop where
  workersLen : p.workers.length = numWorkers
  jobsCapEq : p.jobsCap = numWorkers
  resultsCapEq : p.resultsCap = files.length
  valueEq : p.value root = (okResults root files : List OptimizedResult)
  badEq : p.panicked = none → p.bad root = files.countP (panics root)
  mainOk : p.mainOk
  closedIff : p.resultsClosed = true ↔ p.closer = .closed
  closedExited : p.closer = .closed → ∀ w ∈ p.workers, w = .exited
  exitedJobs : ∀ w ∈ p.workers, w = .exited → p.jobsClosed = true ∧ p.jobs = []

/-- A directory with one well-formed file and one file holding a record of
status 999; any other name fails to open. -/
def brokenRoot : Root := fun name =>
  if name = "access_1.json" then some [.record 200]
  else if name = "access_2.json" then some [.record 999]
  else none

/-! ## The merge of `printResults` -/

/-- The inner loop over a duplicate-free list of slots adds the positive part
of each listed slot and leaves the others alone. -/
theorem foldl_mergeStatus (result : OptimizedResult) (l : List (Fin 600))
    (hl : l.Nodup) (t : Fin 600 → Int) (s : Fin 600) :
    (l.foldl (mergeStatus result) t) s =
      if s ∈ l then t s + max (result.StatusCounts s) 0 else t s := by
  induction l generalizing t with
  | nil => simp
  | cons a l ih =>
    have hnd := List.nodup_cons.mp hl
    rw [List.foldl_cons, ih hnd.2]
    by_cases hsa : s = a
    · subst hsa
      have hs : s ∉ l := hnd.1
      simp only [hs, if_false, List.mem_cons, true_or, if_true]
      unfold mergeStatus
      by_cases hc : result.StatusCounts s > 0
      · simp [hc, max_eq_left (le_of_lt hc)]
      · have : max (result.StatusCounts s) 0 = 0 := max_eq_right (by omega)
        simp [hc, this]
    · have hupd : mergeStatus result t a s = t s := by
        unfold mergeStatus
        by_cases hc : result.StatusCounts a > 0
        · simp [hc, Function.update_noteq hsa]
        · simp [hc]
      simp [List.mem_cons, hsa, hupd]

/-- One round of the outer loop, slot by slot. -/
theorem mergeResult_counts (acc : Totals) (result : OptimizedResult) (s : Fin 600) :
    (mergeResult acc result).totalStatusCounts s =
      acc.totalStatusCounts s + max (result.StatusCounts s) 0 := by
  unfold mergeResult
  simp [foldl_mergeStatus result _ (List.nodup_finRange 600)]

/-- The outer loop from an arbitrary accumulator: the total. -/
theorem foldl_mergeResult_total (results : List OptimizedResult) (acc : Totals) :
    (results.foldl mergeResult acc).totalRequests =
      acc.totalRequests + (results.map (fun r => r.TotalCount)).sum := by
  induction results generalizing acc with
  | nil => simp
  | cons r rs ih =>
    rw [List.foldl_cons, ih]
    simp [mergeResult, add_assoc]

/-- The outer loop from an arbitrary accumulator: one slot of the table. -/
theorem foldl_mergeResult_counts (results : List OptimizedResult) (acc : Totals)
    (s : Fin 600) :
    (results.foldl mergeResult acc).totalStatusCounts s =
      acc.totalStatusCounts s +
        (results.map (fun r => max (r.StatusCounts s) 0)).sum := by
  induction results generalizing acc with
  | nil => simp
  | cons r rs ih =>
    rw [List.foldl_cons, ih, mergeResult_counts]
    simp [add_assoc]

/-- Slot `s` of the merged table is the sum of the positive parts. -/
theorem printResults_counts_pos (results : List OptimizedResult) (s : Fin 600) :
    (printResults results).totalStatusCounts s =
      (results.map (fun r => max (r.StatusCounts s) 0)).sum := by
  unfold printResults
  rw [foldl_mergeResult_counts]
  simp

/-- The accumulated total is the sum of the per-file totals. -/
theorem printResults_total_sum (results : List OptimizedResult) :
    (printResults results).totalRequests =
      (results.map (fun r => r.TotalCount)).sum := by
  unfold printResults
  rw [foldl_mergeResult_total]
  simp

/-- Two accumulated states with the same total and the same slots are equal. -/
theorem Totals.eq_of (a b : Totals) (h₁ : a.totalRequests = b.totalRequests)
    (h₂ : ∀ s, a.totalStatusCounts s = b.totalStatusCounts s) : a = b := by
  cases a; cases b
  simp only [Totals.mk.injEq]
  exact ⟨h₁, funext h₂⟩

/-- The accumulation loop of `errorCount` from an arbitrary start. -/
theorem foldl_add_eq_sum (t : Fin 600 → Int) (l : List (Fin 600)) (a : Int) :
    l.foldl (fun acc status => acc + t status) a = a + (l.map t).sum := by
  induction l generalizing a with
  | nil => simp
  | cons x l ih => rw [List.foldl_cons, ih]; simp [add_assoc]

/-- The value of `errorCount` is the sum of the slots 400 to 599. -/
theorem errorCount_eq_sum (t : Fin 600 → Int) :
    errorCount t = ∑ s in Finset.univ.filter (fun s : Fin 600 => 400 ≤ s.val), t s := by
  have hset : ((List.finRange 600).filter (fun status => 400 ≤ status.val)).toFinset =
      Finset.univ.filter (fun s : Fin 600 => 400 ≤ s.val) := by
    ext s
    simp only [List.toFinset_filter, List.toFinset_finRange, decide_eq_true_eq]
  unfold errorCount
  rw [foldl_add_eq_sum, zero_add,
    ← List.sum_toFinset t ((List.nodup_finRange 600).filter _), hset]

/-! ## The decode loop -/

/-- The slot computed from an in-range status is `s` exactly when the status
is the integer `s`. -/
theorem slot_eq_iff (status : Int) (h : 0 ≤ status ∧ status < 600) (s : Fin 600) :
    s = (⟨status.toNat, by omega⟩ : Fin 600) ↔ status = (s.val : Int) := by
  constructor
  · intro hs
    subst hs
    simp only
    omega
  · intro hs
    apply Fin.ext
    simp only
    omega

/-- One step on an in-range outcome returns, and moves the counters by the
outcome's contribution. -/
theorem decodeStep_ok (r : OptimizedResult) (o : DecodeOutcome)
    (ho : o.inRange = true) :
    ∃ r', decodeStep r o = .ok r' ∧ r'.FileName = r.FileName ∧
      r'.TotalCount = r.TotalCount + (if o.isRecord then 1 else 0) ∧
      ∀ s : Fin 600, r'.StatusCounts s =
        r.StatusCounts s + (if o = .record (s.val : Int) then 1 else 0) := by
  cases o with
  | failure =>
    exact ⟨r, rfl, rfl, by simp [DecodeOutcome.isRecord], by simp⟩
  | record status =>
    have h : 0 ≤ status ∧ status < 600 := by
      simpa [DecodeOutcome.inRange] using ho
    refine ⟨{ r with
        TotalCount := r.TotalCount + 1
        StatusCounts := Function.update r.StatusCounts ⟨status.toNat, by omega⟩
          (r.StatusCounts ⟨status.toNat, by omega⟩ + 1) },
      by simp only [decodeStep, dif_pos h], rfl, by simp [DecodeOutcome.isRecord], ?_⟩
    intro s
    by_cases hs : s = (⟨status.toNat, by omega⟩ : Fin 600)
    · have hst : status = (s.val : Int) := (slot_eq_iff status h s).mp hs
      simp only [DecodeOutcome.record.injEq, hst, if_true]
      rw [← hs]
      simp
    · have hst : ¬ status = (s.val : Int) := fun e => hs ((slot_eq_iff status h s).mpr e)
      simp only [DecodeOutcome.record.injEq, hst, if_false, add_zero]
      exact Function.update_noteq hs _ _

/-- Once a `Decode` has failed the loop is over. -/
theorem decodeLoop_failed (stream : List DecodeOutcome) (r : OptimizedResult) :
    decodeLoop true stream r = .ok r := by
  cases stream with
  | nil => rfl
  | cons o rest => simp [decodeLoop, More]

/-- A malformed record ends the loop with the state as it is. -/
theorem decodeLoop_failure (rest : List DecodeOutcome) (r : OptimizedResult) :
    decodeLoop false (.failure :: rest) r = .ok r := by
  simp [decodeLoop, More, decodeStep, DecodeOutcome.isRecord, decodeLoop_failed]

/-- A well-formed record is counted and the loop goes on. -/
theorem decodeLoop_record (status : Int) (rest : List DecodeOutcome)
    (r : OptimizedResult) :
    decodeLoop false (.record status :: rest) r =
      match decodeStep r (.record status) with
      | .ok r' => decodeLoop false rest r'
      | .error e => .error e := by
  simp [decodeLoop, More, DecodeOutcome.isRecord]

/-- The loop over a stream whose decoded records are in range returns, and its
counters are the starting ones plus the number of decoded records, per slot
the number of decoded records with that status. -/
theorem decodeLoop_ok (stream : List DecodeOutcome)
    (hrange : ∀ o ∈ decoded stream, o.inRange = true) (r : OptimizedResult) :
    ∃ r', decodeLoop false stream r = .ok r' ∧ r'.FileName = r.FileName ∧
      r'.TotalCount = r.TotalCount + (decoded stream).length ∧
      ∀ s : Fin 600, r'.StatusCounts s =
        r.StatusCounts s + (decoded stream).count (.record (s.val : Int)) := by
  induction stream generalizing r with
  | nil => exact ⟨r, rfl, rfl, by simp [decoded], by simp [decoded]⟩
  | cons o rest ih =>
    cases o with
    | failure =>
      exact ⟨r, decodeLoop_failure rest r, rfl,
        by simp [decoded, DecodeOutcome.isRecord],
        by simp [decoded, DecodeOutcome.isRecord]⟩
    | record status =>
      have hdec : decoded (.record status :: rest) = .record status :: decoded rest := by
        simp [decoded, DecodeOutcome.isRecord]
      rw [hdec] at hrange
      obtain ⟨r₁, h₁, hn₁, ht₁, hc₁⟩ :=
        decodeStep_ok r (.record status) (hrange _ (List.mem_cons_self _ _))
      obtain ⟨r₂, h₂, hn₂, ht₂, hc₂⟩ :=
        ih (fun x hx => hrange x (List.mem_cons_of_mem _ hx)) r₁
      refine ⟨r₂, by rw [decodeLoop_record, h₁]; exact h₂, hn₂.trans hn₁, ?_, ?_⟩
      · rw [ht₂, ht₁, hdec]
        simp [DecodeOutcome.isRecord]
        ring
      · intro s
        rw [hc₂, hc₁, hdec, List.count_cons]
        by_cases ho : DecodeOutcome.record status = .record (s.val : Int)
        · simp [ho]; ring
        · have ho' : ¬ (DecodeOutcome.record (s.val : Int)) = .record status :=
            fun e => ho e.symm
          simp [ho, ho']

/-- The call on a file that opens and whose decoded records are in range. -/
theorem processFile_ok (root : Root) (filename : String) (stream : List DecodeOutcome)
    (hopen : root filename = some stream)
    (hrange : ∀ o ∈ decoded stream, o.inRange = true) :
    ∃ result, processFile root filename = .ok result ∧ result.FileName = filename ∧
      result.TotalCount = (decoded stream).length ∧
      ∀ s : Fin 600, result.StatusCounts s =
        (decoded stream).count (.record (s.val : Int)) := by
  obtain ⟨r', h, hn, ht, hc⟩ := decodeLoop_ok stream hrange (newResult filename)
  refine ⟨r', by simp only [processFile, hopen, h], hn, ?_, ?_⟩
  · simpa [newResult] using ht
  · intro s
    simpa [newResult] using hc s

/-- The records decoded from the first `k` records of a stream are among the
records decoded from the stream. -/
theorem mem_decoded_take (stream : List DecodeOutcome) (k : Nat) (o : DecodeOutcome)
    (h : o ∈ decoded (stream.take k)) : o ∈ decoded stream := by
  induction stream generalizing k with
  | nil => simp [decoded] at h
  | cons x rest ih =>
    cases k with
    | zero => simp [decoded] at h
    | succ k =>
      cases x with
      | failure => simp [decoded, DecodeOutcome.isRecord] at h
      | record status =>
        have e₁ : decoded ((DecodeOutcome.record status :: rest).take (k + 1)) =
            .record status :: decoded (rest.take k) := by
          simp [decoded, DecodeOutcome.isRecord]
        have e₂ : decoded (DecodeOutcome.record status :: rest) =
            .record status :: decoded rest := by
          simp [decoded, DecodeOutcome.isRecord]
        rw [e₁] at h
        rw [e₂]
        rcases List.mem_cons.mp h with rfl | h'
        · exact List.mem_cons_self _ _
        · exact List.mem_cons_of_mem _ (ih k h')

/-- Bumping one slot of a table raises the sum of the table by one. -/
theorem sum_update_succ (t : Fin 600 → Int) (i : Fin 600) :
    ∑ s, Function.update t i (t i + 1) s = (∑ s, t s) + 1 := by
  have h : Function.update t i (t i + 1) = fun s => t s + (if s = i then 1 else 0) := by
    funext s
    by_cases hs : s = i
    · subst hs; simp
    · simp [hs]
  rw [h, Finset.sum_add_distrib]
  simp

/-- A step that returns keeps `TotalCount` equal to the sum of the table. -/
theorem decodeStep_sum (r r' : OptimizedResult) (o : DecodeOutcome)
    (hstep : decodeStep r o = .ok r')
    (hinv : r.TotalCount = ∑ s, r.StatusCounts s) :
    r'.TotalCount = ∑ s, r'.StatusCounts s := by
  cases o with
  | failure =>
    simp only [decodeStep, Except.ok.injEq] at hstep
    subst hstep
    exact hinv
  | record status =>
    by_cases h : 0 ≤ status ∧ status < 600
    · simp only [decodeStep, dif_pos h, Except.ok.injEq] at hstep
      subst hstep
      simp only
      rw [sum_update_succ, hinv]
    · simp [decodeStep, dif_neg h] at hstep

/-- A loop that returns keeps `TotalCount` equal to the sum of the table. -/
theorem decodeLoop_sum (stream : List DecodeOutcome) (failed : Bool)
    (r r' : OptimizedResult) (hloop : decodeLoop failed stream r = .ok r')
    (hinv : r.TotalCount = ∑ s, r.StatusCounts s) :
    r'.TotalCount = ∑ s, r'.StatusCounts s := by
  induction stream generalizing r failed with
  | nil =>
    simp only [decodeLoop, Except.ok.injEq] at hloop
    subst hloop
    exact hinv
  | cons o rest ih =>
    simp only [decodeLoop] at hloop
    split at hloop
    · cases hstep : decodeStep r o with
      | error e => simp [hstep] at hloop
      | ok r₁ =>
        simp only [hstep] at hloop
        exact ih _ r₁ hloop (decodeStep_sum r r₁ o hstep hinv)
    · simp only [Except.ok.injEq] at hloop
      subst hloop
      exact hinv

/-- The loop stops with a panic at the first decoded record whose status is
outside the table. -/
theorem decodeLoop_panic (pre post : List DecodeOutcome) (status : Int)
    (hpre : ∀ o ∈ pre, o.isRecord = true ∧ o.inRange = true)
    (hbad : ¬ (0 ≤ status ∧ status < 600)) (r : OptimizedResult) :
    decodeLoop false (pre ++ .record status :: post) r = .error status := by
  induction pre generalizing r with
  | nil =>
    rw [List.nil_append, decodeLoop_record]
    simp [decodeStep, dif_neg hbad]
  | cons o rest ih =>
    have ho := hpre o (List.mem_cons_self _ _)
    cases o with
    | failure => simp [DecodeOutcome.isRecord] at ho
    | record st =>
      obtain ⟨r₁, h₁, -⟩ := decodeStep_ok r (.record st) ho.2
      rw [List.cons_append, decodeLoop_record, h₁]
      exact ih (fun x hx => hpre x (List.mem_cons_of_mem _ hx)) r₁

/-- A stream with a decoded out-of-range record splits at the first one. -/
theorem exists_first_out_of_range (stream : List DecodeOutcome)
    (hbad : ∃ o ∈ decoded stream, o.inRange = false) :
    ∃ pre status post, stream = pre ++ .record status :: post ∧
      (∀ o ∈ pre, o.isRecord = true ∧ o.inRange = true) ∧
      ¬ (0 ≤ status ∧ status < 600) := by
  induction stream with
  | nil => simp [decoded] at hbad
  | cons o rest ih =>
    cases o with
    | failure => simp [decoded, DecodeOutcome.isRecord] at hbad
    | record status =>
      have hdec : decoded (.record status :: rest) = .record status :: decoded rest := by
        simp [decoded, DecodeOutcome.isRecord]
      rw [hdec] at hbad
      by_cases ho : (DecodeOutcome.record status).inRange = true
      · obtain ⟨x, hx, hxb⟩ := hbad
        have hx' : x ∈ decoded rest := by
          rcases List.mem_cons.mp hx with rfl | h
          · simp [ho] at hxb
          · exact h
        obtain ⟨pre, st, post, heq, hpre, hst⟩ := ih ⟨x, hx', hxb⟩
        refine ⟨.record status :: pre, st, post, by simp [heq], ?_, hst⟩
        intro y hy
        rcases List.mem_cons.mp hy with rfl | h
        · exact ⟨rfl, ho⟩
        · exact hpre y h
      · refine ⟨[], status, rest, rfl, by simp, ?_⟩
        simpa [DecodeOutcome.inRange] using ho

/-- A step that returns keeps the counters non-negative. -/
theorem decodeStep_nonneg (r r' : OptimizedResult) (o : DecodeOutcome)
    (hstep : decodeStep r o = .ok r') (hr : ∀ s, 0 ≤ r.StatusCounts s) :
    ∀ s, 0 ≤ r'.StatusCounts s := by
  cases o with
  | failure =>
    simp only [decodeStep, Except.ok.injEq] at hstep
    subst hstep
    exact hr
  | record status =>
    by_cases h : 0 ≤ status ∧ status < 600
    · simp only [decodeStep, dif_pos h, Except.ok.injEq] at hstep
      subst hstep
      intro s
      simp only [Function.update_apply]
      split
      · have := hr ⟨status.toNat, by omega⟩
        omega
      · exact hr s
    · simp [decodeStep, dif_neg h] at hstep

/-- A loop that returns keeps the counters non-negative. -/
theorem decodeLoop_nonneg (stream : List DecodeOutcome) (failed : Bool)
    (r r' : OptimizedResult) (hloop : decodeLoop failed stream r = .ok r')
    (hr : ∀ s, 0 ≤ r.StatusCounts s) : ∀ s, 0 ≤ r'.StatusCounts s := by
  induction stream generalizing r failed with
  | nil =>
    simp only [decodeLoop, Except.ok.injEq] at hloop
    subst hloop
    exact hr
  | cons o rest ih =>
    simp only [decodeLoop] at hloop
    split at hloop
    · cases hstep : decodeStep r o with
      | error e => simp [hstep] at hloop
      | ok r₁ =>
        simp only [hstep] at hloop
        exact ih _ r₁ hloop (decodeStep_nonneg r r₁ o hstep hr)
    · simp only [Except.ok.injEq] at hloop
      subst hloop
      exact hr

/-- Every result `processFile` returns has non-negative counters. -/
theorem processFile_nonneg (root : Root) (filename : String) (r : OptimizedResult)
    (h : (processFile root filename).toOption = some r) : ∀ s, 0 ≤ r.StatusCounts s := by
  unfold processFile at h
  split at h
  · simp [FileOutcome.toOption] at h
  · split at h
    · rename_i result hloop
      simp only [FileOutcome.toOption, Option.some.injEq] at h
      subst h
      exact decodeLoop_nonneg _ false _ _ hloop (by simp [newResult])
    · simp [FileOutcome.toOption] at h

/-- Every per-file result of a list of files has non-negative counters. -/
theorem okResults_nonneg (root : Root) (files : List String) :
    ∀ r ∈ okResults root files, ∀ s, 0 ≤ r.StatusCounts s := by
  intro r hr
  obtain ⟨f, -, hf⟩ := List.mem_filterMap.mp hr
  exact processFile_nonneg root f r hf

/-! ## The formatter -/

/-- The character of a decimal digit is a digit. -/
theorem digitChar_isDigit (k : Nat) (hk : k < 10) :
    (Nat.digitChar k).isDigit = true := by
  interval_cases k <;> decide

/-- The decimal digit list of a number holds digits only. -/
theorem toDigitsCore_isDigit (fuel : Nat) : ∀ (n : Nat) (ds : List Char),
    (∀ c ∈ ds, c.isDigit = true) →
      ∀ c ∈ Nat.toDigitsCore 10 fuel n ds, c.isDigit = true := by
  induction fuel with
  | zero => intro n ds hds; simpa [Nat.toDigitsCore] using hds
  | succ fuel ih =>
    intro n ds hds
    have hd : (Nat.digitChar (n % 10)).isDigit = true :=
      digitChar_isDigit _ (Nat.mod_lt _ (by decide))
    have hds' : ∀ c ∈ Nat.digitChar (n % 10) :: ds, c.isDigit = true := by
      intro c hc
      rcases List.mem_cons.mp hc with rfl | h
      · exact hd
      · exact hds c h
    simp only [Nat.toDigitsCore]
    split
    · exact hds'
    · exact ih _ _ hds'

/-- The digit list only grows. -/
theorem toDigitsCore_length (fuel : Nat) : ∀ (n : Nat) (ds : List Char),
    ds.length ≤ (Nat.toDigitsCore 10 fuel n ds).length := by
  induction fuel with
  | zero => intro n ds; simp [Nat.toDigitsCore]
  | succ fuel ih =>
    intro n ds
    simp only [Nat.toDigitsCore]
    split
    · simp
    · exact le_trans (by simp) (ih _ _)

/-- The decimal digit list of a number is not empty. -/
theorem toDigits_ne_nil (m : Nat) : Nat.toDigits 10 m ≠ [] := by
  intro h
  have hl : (Nat.toDigits 10 m).length = 0 := by rw [h]; rfl
  unfold Nat.toDigits at hl
  simp only [Nat.toDigitsCore] at hl
  split at hl
  · simp at hl
  · have := toDigitsCore_length m (m / 10) [Nat.digitChar (m % 10)]
    simp at this
    omega

/-- One group joined by commas is the group. -/
theorem intercalate_single (g : List Char) : List.intercalate [','] [g] = g := by
  simp [List.intercalate, List.intersperse]

/-- Two or more groups joined by commas: the first group, a comma, the rest. -/
theorem intercalate_cons_cons (g g' : List Char) (groups : List (List Char)) :
    List.intercalate [','] (g :: g' :: groups) =
      g ++ ',' :: List.intercalate [','] (g' :: groups) := by
  simp [List.intercalate, List.intersperse]

/-- A character put in front of the first group comes out in front. -/
theorem intercalate_push (c : Char) (g : List Char) (groups : List (List Char)) :
    List.intercalate [','] ((c :: g) :: groups) =
      c :: List.intercalate [','] (g :: groups) := by
  cases groups with
  | nil => simp [intercalate_single]
  | cons g' rest => simp [intercalate_cons_cons]

/-- What the loop appends for a non-empty run of characters is, after the
comma that may lead it, the run cut into a first group of one to three
characters and groups of three, joined by commas. -/
theorem formatTail_groups (cs : List Char) (hcs : cs ≠ []) (inner : Bool) :
    ∃ g groups, cs = g ++ groups.flatten ∧ g ≠ [] ∧ g.length ≤ 3 ∧
      g.length % 3 = cs.length % 3 ∧ (∀ x ∈ groups, x.length = 3) ∧
      formatTail inner cs =
        (if inner = true ∧ cs.length % 3 = 0 then [','] else []) ++
          List.intercalate [','] (g :: groups) := by
  induction cs generalizing inner with
  | nil => exact absurd rfl hcs
  | cons c rest ih =>
    by_cases hrest : rest = []
    · subst hrest
      refine ⟨[c], [], by simp, by simp, by simp, by simp, by simp, ?_⟩
      simp [formatTail, intercalate_single]
    · obtain ⟨g, groups, hsplit, hg, hg3, hmod, hall, hfmt⟩ := ih hrest true
      have hglen : 0 < g.length := List.length_pos.mpr hg
      by_cases hm : rest.length % 3 = 0
      · have hg' : g.length = 3 := by omega
        refine ⟨[c], g :: groups, ?_, by simp, by simp, ?_, ?_, ?_⟩
        · simp [hsplit]
        · simp only [List.length_cons, List.length_nil]; omega
        · intro x hx
          rcases List.mem_cons.mp hx with rfl | h
          · exact hg'
          · exact hall x h
        · have h1 : ¬ (rest.length + 1) % 3 = 0 := by omega
          simp only [formatTail, hfmt, hm, h1, List.length_cons, and_false, and_true,
            if_false, if_true, List.nil_append, intercalate_cons_cons]
          simp
      · refine ⟨c :: g, groups, ?_, by simp, ?_, ?_, hall, ?_⟩
        · simp [hsplit]
        · simp only [List.length_cons]; omega
        · simp only [List.length_cons]; omega
        · simp only [formatTail, hfmt, hm, List.length_cons, and_false, if_false,
            List.nil_append, intercalate_push]

/-- Removing the commas from what the loop appends gives the characters back. -/
theorem formatTail_filter (cs : List Char) (h : ∀ c ∈ cs, c ≠ ',') (inner : Bool) :
    (formatTail inner cs).filter (fun c => c != ',') = cs := by
  induction cs generalizing inner with
  | nil => rfl
  | cons c rest ih =>
    have hc := h c (List.mem_cons_self _ _)
    have ih' := ih (fun x hx => h x (List.mem_cons_of_mem _ hx)) true
    simp only [formatTail]
    split <;> simp [hc, ih']

/-- A comma in what the loop appends for a run of digits is followed by a
digit, and is either the leading comma or preceded by a digit. -/
theorem formatTail_comma (cs : List Char) (h : ∀ c ∈ cs, c.isDigit = true)
    (inner : Bool) (a t : List Char) (hsplit : formatTail inner cs = a ++ ',' :: t) :
    (∃ y t', t = y :: t' ∧ y.isDigit = true) ∧
      ((a = [] ∧ inner = true) ∨ ∃ a' x, a = a' ++ [x] ∧ x.isDigit = true) := by
  induction cs generalizing inner a t with
  | nil => simp [formatTail] at hsplit
  | cons c rest ih =>
    have hc := h c (List.mem_cons_self _ _)
    have hcc : c ≠ ',' := by intro e; subst e; simp at hc
    have hrest := fun x hx => h x (List.mem_cons_of_mem _ hx)
    -- the part from `c` on
    have key : ∀ a₂ : List Char, c :: formatTail true rest = a₂ ++ ',' :: t →
        (∃ y t', t = y :: t' ∧ y.isDigit = true) ∧
          ∃ a' x, a₂ = a' ++ [x] ∧ x.isDigit = true := by
      intro a₂ h₂
      rcases List.cons_eq_append_iff.mp h₂ with ⟨-, h0⟩ | ⟨a₃, ha₃, h3⟩
      · simp only [List.cons.injEq] at h0
        exact absurd h0.1.symm hcc
      · obtain ⟨ht, ha⟩ := ih hrest true a₃ t h3
        refine ⟨ht, ?_⟩
        rcases ha with ⟨rfl, -⟩ | ⟨a', x, rfl, hx⟩
        · exact ⟨[], c, by simp [ha₃], hc⟩
        · exact ⟨c :: a', x, by simp [ha₃], hx⟩
    simp only [formatTail] at hsplit
    split at hsplit
    · rename_i hcond
      rcases List.cons_eq_append_iff.mp hsplit with ⟨ha, h0⟩ | ⟨a₂, ha₂, h2⟩
      · simp at h0
        subst ha
        exact ⟨⟨c, _, h0, hc⟩, Or.inl ⟨rfl, hcond.1⟩⟩
      · obtain ⟨ht, a', x, hx, hxd⟩ := key a₂ (by simpa using h2)
        exact ⟨ht, Or.inr ⟨',' :: a', x, by simp [ha₂, hx], hxd⟩⟩
    · obtain ⟨ht, a', x, hx, hxd⟩ := key a (by simpa using hsplit)
      exact ⟨ht, Or.inr ⟨a', x, hx, hxd⟩⟩

/-- The decimal string of a non-negative integer is the digit list of its
value. -/
theorem toString_data (n : Int) (hn : 0 ≤ n) :
    ∃ m : Nat, n = Int.ofNat m ∧ (toString n).data = Nat.toDigits 10 m := by
  obtain ⟨m, rfl⟩ := Int.eq_ofNat_of_zero_le hn
  exact ⟨m, rfl, rfl⟩

/-- The loop of `formatNumber` appends `formatTail` to the string built so
far. -/
theorem formatLoop_data (len : Nat) (cs : List Char) : ∀ (i : Nat) (result : String),
    i + cs.length = len →
    (formatLoop len i cs result).data = result.data ++ formatTail (decide (i > 0)) cs := by
  induction cs with
  | nil => intro i result _; simp [formatLoop, formatTail]
  | cons c rest ih =>
    intro i result hlen
    simp only [List.length_cons] at hlen
    have hsub : len - i = rest.length + 1 := by omega
    simp only [formatLoop, formatTail, hsub]
    rw [ih (i + 1) _ (by omega)]
    by_cases hi : i > 0 <;> by_cases hm : (rest.length + 1) % 3 = 0 <;>
      simp [hi, hm, String.data_append]

/-- The output of `formatNumber` is what the loop appends from the first
character on. -/
theorem formatNumber_data (n : Int) :
    (formatNumber n).data = formatTail false (toString n).data := by
  have hlen : 0 + (toString n).data.length = (toString n).length := by
    rw [Nat.zero_add]
    rfl
  have h := formatLoop_data (toString n).length (toString n).data 0 "" hlen
  have hd : decide (0 > 0) = false := by decide
  rw [hd] at h
  have he : ("" : String).data = [] := rfl
  rw [he, List.nil_append] at h
  exact h

/-! ## The three-file scenario -/

/-- An integer status equals the value of a slot exactly when the slot is the
one of that number. -/
theorem status_eq_slot_iff (n : Nat) (hn : n < 600) (s : Fin 600) :
    ((n : Int) = (s.val : Int)) ↔ s = ⟨n, hn⟩ := by
  constructor
  · intro h
    apply Fin.ext
    simp only
    omega
  · intro h
    subst h
    rfl

/-- What the scenario computes: three results, total 6, the merged table, and
error count 3. -/
theorem scenario_values :
    scenarioResults.length = 3 ∧
      (printResults scenarioResults).totalRequests = 6 ∧
      (∀ s : Fin 600, (printResults scenarioResults).totalStatusCounts s =
        if s = 200 then 3 else if s = 404 then 1 else if s = 500 then 2 else 0) ∧
      errorCount (printResults scenarioResults).totalStatusCounts = 3 := by
  obtain ⟨r₁, h₁, -, ht₁, hc₁⟩ := processFile_ok scenarioRoot "access_1.json"
    [.record 200, .record 200, .record 404] (by simp [scenarioRoot]) (by decide)
  obtain ⟨r₂, h₂, -, ht₂, hc₂⟩ := processFile_ok scenarioRoot "access_2.json"
    [.record 200, .record 500, .record 500] (by simp [scenarioRoot]) (by decide)
  obtain ⟨r₃, h₃, -, ht₃, hc₃⟩ := processFile_ok scenarioRoot "access_3.json"
    [] (by simp [scenarioRoot]) (by decide)
  have hres : scenarioResults = [r₁, r₂, r₃] := by
    simp [scenarioResults, h₁, h₂, h₃, FileOutcome.toOption]
  rw [hres]
  have d₁ : decoded [.record 200, .record 200, .record 404] =
      [.record 200, .record 200, .record 404] := by decide
  have d₂ : decoded [.record 200, .record 500, .record 500] =
      [.record 200, .record 500, .record 500] := by decide
  have d₃ : decoded [] = [] := by decide
  simp only [d₁] at ht₁ hc₁
  simp only [d₂] at ht₂ hc₂
  simp only [d₃] at ht₃ hc₃
  have hcnt : ∀ s : Fin 600, (printResults [r₁, r₂, r₃]).totalStatusCounts s =
      if s = 200 then 3 else if s = 404 then 1 else if s = 500 then 2 else 0 := by
    intro s
    rw [printResults_counts_pos]
    simp only [List.map_cons, List.map_nil, List.sum_cons, List.sum_nil, hc₁, hc₂, hc₃]
    have e200 := status_eq_slot_iff 200 (by decide) s
    have e404 := status_eq_slot_iff 404 (by decide) s
    have e500 := status_eq_slot_iff 500 (by decide) s
    simp only [Nat.cast_ofNat] at e200 e404 e500
    simp only [List.count_cons, List.count_nil, beq_iff_eq, DecodeOutcome.record.injEq,
      e200, e404, e500]
    by_cases a : s = 200
    · subst a; decide
    · by_cases b : s = 404
      · subst b; decide
      · by_cases c : s = 500
        · subst c; decide
        · have a' : ¬ s = ⟨200, by decide⟩ := a
          have b' : ¬ s = ⟨404, by decide⟩ := b
          have c' : ¬ s = ⟨500, by decide⟩ := c
          simp [a, b, c, a', b', c']
  refine ⟨rfl, ?_, hcnt, ?_⟩
  · rw [printResults_total_sum]
    simp only [List.map_cons, List.map_nil, List.sum_cons, List.sum_nil, ht₁, ht₂, ht₃]
    decide
  · rw [errorCount_eq_sum, Finset.sum_congr rfl (fun s _ => hcnt s)]
    have key : ∀ s : Fin 600,
        (if s = 200 then 3 else if s = 404 then 1 else if s = 500 then 2 else 0 : Int) =
          (if s = 200 then 3 else 0) + (if s = 404 then 1 else 0) +
            (if s = 500 then 2 else 0) := by
      intro s
      by_cases a : s = 200
      · subst a; decide
      · by_cases b : s = 404
        · subst b; decide
        · simp [a, b]
    simp only [key, Finset.sum_add_distrib, Finset.sum_ite_eq', Finset.mem_filter,
      Finset.mem_univ, true_and]
    decide

/-! ## The worker pool -/

/-- Replacing the state of one worker moves a sum over the workers by the
difference of the two summands. -/
theorem sum_map_set {M : Type} [AddCommMonoid M] (f : WorkerState → M)
    (l : List WorkerState) (i : Nat) (w w' : WorkerState) (h : l[i]? = some w) :
    ((l.set i w').map f).sum + f w = (l.map f).sum + f w' := by
  induction l generalizing i with
  | nil => simp at h
  | cons x l ih =>
    cases i with
    | zero =>
      simp only [List.getElem?_cons_zero, Option.some.injEq] at h
      subst h
      simp only [List.set_cons_zero, List.map_cons, List.sum_cons]
      abel
    | succ i =>
      simp only [List.getElem?_cons_succ] at h
      simp only [List.set_cons_succ, List.map_cons, List.sum_cons]
      rw [add_assoc, ih i h, add_assoc]

/-- The worker at an index is a member of the list. -/
theorem mem_of_getElem? (l : List WorkerState) (i : Nat) (w : WorkerState)
    (h : l[i]? = some w) : w ∈ l := by
  obtain ⟨hi, rfl⟩ := List.getElem?_eq_some.mp h
  exact List.getElem_mem hi

/-- The potential of a list of workers after one of them moved. -/
theorem potential_set (l : List WorkerState) (i : Nat) (w w' : WorkerState)
    (h : l[i]? = some w) :
    ((l.set i w').map WorkerState.potential).sum + w.potential =
      (l.map WorkerState.potential).sum + w'.potential :=
  sum_map_set WorkerState.potential l i w w' h

/-- Every step of the caller lowers the potential. -/
theorem stepMain_potential (p q : Pool) (hp : p.panicked = none)
    (h : stepMain p = some q) : q.potential < p.potential := by
  unfold stepMain at h
  split at h
  · split at h
    · simp only [Option.some.injEq] at h
      subst h
      simp_all [Pool.potential, MainState.remaining, MainState.potential]
      omega
    · simp at h
  · simp only [Option.some.injEq] at h
    subst h
    simp_all [Pool.potential, MainState.remaining, MainState.potential]
  · simp only [Option.some.injEq] at h
    subst h
    simp_all [Pool.potential, MainState.remaining, MainState.potential]
    split <;> omega
  · split at h
    · simp only [Option.some.injEq] at h
      subst h
      simp_all [Pool.potential, MainState.remaining, MainState.potential]
    · split at h
      · simp only [Option.some.injEq] at h
        subst h
        simp_all [Pool.potential, MainState.remaining, MainState.potential]
      · simp at h
  · simp at h

/-- Every step of a worker lowers the potential. -/
theorem stepWorker_potential (root : Root) (i : Nat) (p q : Pool)
    (hp : p.panicked = none) (h : stepWorker root i p = some q) :
    q.potential < p.potential := by
  unfold stepWorker at h
  split at h
  · simp at h
  · rename_i hw
    have hs := fun w' => potential_set p.workers i _ w' hw
    split at h
    · have := hs (.processing ‹String›)
      simp only [Option.some.injEq] at h
      subst h
      simp_all [Pool.potential, WorkerState.potential]
      omega
    · have := hs .exited
      split at h
      · simp only [Option.some.injEq] at h
        subst h
        simp_all [Pool.potential, WorkerState.potential]
        omega
      · simp at h
  · rename_i filename hw
    have hs := fun w' => potential_set p.workers i _ w' hw
    split at h
    · have := hs (.sending ‹OptimizedResult›)
      simp only [Option.some.injEq] at h
      subst h
      simp_all [Pool.potential, WorkerState.potential]
      omega
    · have := hs .receiving
      simp only [Option.some.injEq] at h
      subst h
      simp_all [Pool.potential, WorkerState.potential]
      omega
    · simp only [Option.some.injEq] at h
      subst h
      simp_all [Pool.potential, WorkerState.potential]
  · rename_i result hw
    have := potential_set p.workers i _ .receiving hw
    split at h
    · simp only [Option.some.injEq] at h
      subst h
      simp_all [Pool.potential, WorkerState.potential]
      omega
    · simp at h
  · simp at h

/-- The step of the closing goroutine lowers the potential. -/
theorem stepCloser_potential (p q : Pool) (hp : p.panicked = none)
    (h : stepCloser p = some q) : q.potential < p.potential := by
  unfold stepCloser at h
  split at h
  · rename_i hc
    split at h
    · simp only [Option.some.injEq] at h
      subst h
      simp_all [Pool.potential]
    · simp at h
  · simp at h

/-- Every step lowers the potential. -/
theorem step_potential (root : Root) (a : Action) (p q : Pool)
    (h : step root a p = some q) : q.potential < p.potential := by
  unfold step at h
  split at h
  · simp at h
  · rename_i hp
    have hp' : p.panicked = none := by
      cases hpp : p.panicked with
      | none => rfl
      | some st => simp [hpp] at hp
    cases a with
    | main => exact stepMain_potential p q hp' h
    | worker i => exact stepWorker_potential root i p q hp' h
    | closer => exact stepCloser_potential p q hp' h

/-- A list with an element appended, as a multiset. -/
theorem coe_append_singleton {α : Type} (l : List α) (a : α) :
    ((l ++ [a] : List α) : Multiset α) = (l : Multiset α) + {a} := by
  rw [← Multiset.coe_singleton, Multiset.coe_add]

/-- A list with an element in front, as a multiset. -/
theorem coe_cons_singleton {α : Type} (a : α) (l : List α) :
    ((a :: l : List α) : Multiset α) = {a} + (l : Multiset α) := by
  rw [← Multiset.cons_coe, Multiset.singleton_add]

/-- The results of a list of files split at its head. -/
theorem okResults_cons (root : Root) (filename : String) (rest : List String) :
    (okResults root (filename :: rest) : Multiset OptimizedResult) =
      (okResults root [filename] : List OptimizedResult) +
        (okResults root rest : List OptimizedResult) := by
  rw [Multiset.coe_add]
  congr 1
  unfold okResults
  cases h : (processFile root filename).toOption <;> simp [List.filterMap_cons, h]

/-- The results of a list of files split in two. -/
theorem okResults_append (root : Root) (l₁ l₂ : List String) :
    (okResults root (l₁ ++ l₂) : Multiset OptimizedResult) =
      (okResults root l₁ : List OptimizedResult) +
        (okResults root l₂ : List OptimizedResult) := by
  rw [Multiset.coe_add]
  congr 1
  unfold okResults
  exact List.filterMap_append _ _ _

/-- The invariant holds when the pool starts. -/
theorem inv_init (root : Root) (files : List String) (numWorkers : Nat) :
    Inv root files numWorkers (Pool.init files numWorkers) := by
  have hval : ∀ n : Nat,
      ((List.replicate n WorkerState.receiving).map (WorkerState.value root)).sum = 0 := by
    intro n
    induction n with
    | zero => simp
    | succ n ih => simp [List.replicate_succ, WorkerState.value]
  have hbad : ∀ n : Nat,
      ((List.replicate n WorkerState.receiving).map (WorkerState.bad root)).sum = 0 := by
    intro n
    induction n with
    | zero => simp
    | succ n ih => simp [List.replicate_succ, WorkerState.bad]
  refine
    { workersLen := by simp [Pool.init]
      jobsCapEq := rfl
      resultsCapEq := rfl
      valueEq := ?_
      badEq := ?_
      mainOk := by simp [Pool.init, Pool.mainOk]
      closedIff := by simp [Pool.init]
      closedExited := by simp [Pool.init]
      exitedJobs := ?_ }
  · simp only [Pool.value, Pool.init, MainState.remaining, hval]
    simp [okResults]
  · intro _
    simp only [Pool.bad, Pool.init, MainState.remaining, hbad]
    simp
  · intro w hw he
    subst he
    simp [Pool.init, List.mem_replicate] at hw

/-- The caller's steps keep the invariant. -/
theorem inv_stepMain (root : Root) (files : List String) (numWorkers : Nat)
    (p q : Pool) (hinv : Inv root files numWorkers p) (hp : p.panicked = none)
    (h : stepMain p = some q) : Inv root files numWorkers q := by
  obtain ⟨hwl, hjc, hrc, hval, hbad, hmain, hci, hce, hej⟩ := hinv
  unfold stepMain at h
  split at h
  · rename_i filename rest hm
    split at h
    · simp only [Option.some.injEq] at h
      subst h
      simp only [Pool.mainOk, hm] at hmain
      refine ⟨hwl, hjc, hrc, ?_, ?_, ?_, hci, hce, ?_⟩
      · rw [← hval]
        simp only [Pool.value, hm, MainState.remaining]
        rw [okResults_append, okResults_cons root filename rest]
        abel
      · intro hpn
        rw [← hbad hpn]
        simp only [Pool.bad, hm, MainState.remaining, List.countP_append, List.countP_cons]
        simp only [List.countP_nil]
        omega
      · simpa [Pool.mainOk] using hmain
      · intro w hw he
        have := (hej w hw he).1
        simp [hmain.1] at this
    · simp at h
  · rename_i hm
    simp only [Option.some.injEq] at h
    subst h
    simp only [Pool.mainOk, hm] at hmain
    refine ⟨hwl, hjc, hrc, ?_, ?_, ?_, hci, hce, ?_⟩
    · rw [← hval]
      simp only [Pool.value, hm, MainState.remaining]
    · intro hpn
      rw [← hbad hpn]
      simp only [Pool.bad, hm, MainState.remaining]
    · simpa [Pool.mainOk] using hmain.2
    · intro w hw he
      exact ⟨rfl, (hej w hw he).2⟩
  · rename_i hm
    simp only [Option.some.injEq] at h
    subst h
    simp only [Pool.mainOk, hm] at hmain
    refine ⟨hwl, hjc, hrc, ?_, ?_, ?_, ?_, ?_, hej⟩
    · rw [← hval]
      simp only [Pool.value, hm, MainState.remaining]
    · intro hpn
      rw [← hbad hpn]
      simp only [Pool.bad, hm, MainState.remaining]
    · simpa [Pool.mainOk] using hmain.1
    · have : ¬ p.resultsClosed = true := fun hc => by
        have := hci.mp hc
        simp [hmain.2] at this
      simpa using this
    · intro hc
      simp at hc
  · rename_i hm
    simp only [Pool.mainOk, hm] at hmain
    split at h
    · rename_i result rest hr
      simp only [Option.some.injEq] at h
      subst h
      refine ⟨hwl, hjc, hrc, ?_, ?_, ?_, hci, hce, hej⟩
      · rw [← hval]
        simp only [Pool.value, hm, MainState.remaining, hr]
        rw [coe_append_singleton, coe_cons_singleton]
        abel
      · intro hpn
        rw [← hbad hpn]
        simp only [Pool.bad, hm, MainState.remaining]
      · simpa [Pool.mainOk, hm] using hmain
    · rename_i hr
      split at h
      · rename_i hclosed
        simp only [Option.some.injEq] at h
        subst h
        refine ⟨hwl, hjc, hrc, ?_, ?_, ?_, hci, hce, hej⟩
        · rw [← hval]
          simp only [Pool.value, hm, MainState.remaining]
        · intro hpn
          rw [← hbad hpn]
          simp only [Pool.bad, hm, MainState.remaining]
        · simp only [Pool.mainOk]
          exact ⟨hmain.1, hci.mp hclosed, hr, hp⟩
      · simp at h
  · simp at h

/-- A worker whose file gives a result accounts for that result. -/
theorem value_processing_ok (root : Root) (filename : String) (result : OptimizedResult)
    (h : processFile root filename = .ok result) :
    WorkerState.value root (.processing filename) = {result} := by
  simp [WorkerState.value, okResults, h, FileOutcome.toOption]

/-- A worker whose file fails to open accounts for nothing. -/
theorem value_processing_err (root : Root) (filename : String)
    (h : processFile root filename = .openError) :
    WorkerState.value root (.processing filename) = 0 := by
  simp [WorkerState.value, okResults, h, FileOutcome.toOption]

/-- A worker whose file does not panic holds no bad file. -/
theorem bad_processing (root : Root) (filename : String)
    (h : panics root filename = false) :
    WorkerState.bad root (.processing filename) = 0 := by
  simp [WorkerState.bad, h]

/-- The caller's control invariant carries over to a state with the same
caller, flags and closing goroutine. -/
theorem mainOk_congr (p q : Pool) (h : p.mainOk) (hm : q.main = p.main)
    (hj : q.jobsClosed = p.jobsClosed) (hc : q.closer = p.closer)
    (hr : p.main = .returned → q.results = [] ∧ q.panicked = none) : q.mainOk := by
  unfold Pool.mainOk at h ⊢
  rw [hm, hj, hc]
  cases hpm : p.main with
  | feeding rest => simpa [hpm] using h
  | spawning => simpa [hpm] using h
  | draining => simpa [hpm] using h
  | returned =>
    simp only [hpm] at h
    exact ⟨h.1, h.2.1, (hr hpm).1, (hr hpm).2⟩

/-- While a worker is still in its loop the caller has not returned. -/
theorem not_returned_of_live (p : Pool) (hmain : p.mainOk)
    (hce : p.closer = .closed → ∀ w ∈ p.workers, w = .exited)
    (w : WorkerState) (hw : w ∈ p.workers) (hne : w ≠ .exited) :
    p.main ≠ .returned := by
  intro hm
  simp only [Pool.mainOk, hm] at hmain
  exact hne (hce hmain.2.1 w hw)

/-- A worker's steps keep the invariant. -/
theorem inv_stepWorker (root : Root) (files : List String) (numWorkers : Nat)
    (i : Nat) (p q : Pool) (hinv : Inv root files numWorkers p)
    (h : stepWorker root i p = some q) : Inv root files numWorkers q := by
  obtain ⟨hwl, hjc, hrc, hval, hbad, hmain, hci, hce, hej⟩ := hinv
  unfold stepWorker at h
  split at h
  · simp at h
  · -- at `range jobs`
    rename_i hw
    have hmem := mem_of_getElem? _ _ _ hw
    have hlive := not_returned_of_live p hmain hce _ hmem (by simp)
    have hv := fun w' => sum_map_set (WorkerState.value root) p.workers i _ w' hw
    have hb := fun w' => sum_map_set (WorkerState.bad root) p.workers i _ w' hw
    split at h
    · rename_i filename rest hj
      simp only [Option.some.injEq] at h
      subst h
      have hv' := hv (.processing filename)
      have hb' := hb (.processing filename)
      simp only [WorkerState.value, WorkerState.bad, add_zero] at hv' hb'
      refine ⟨by simpa using hwl, hjc, hrc, ?_, ?_, ?_, hci, ?_, ?_⟩
      · rw [← hval]
        simp only [Pool.value, hj, hv']
        rw [okResults_cons root filename rest]
        abel
      · intro hpn
        rw [← hbad hpn]
        simp only [Pool.bad, hj, hb', List.countP_cons, List.countP_nil]
        omega
      · exact mainOk_congr p _ hmain rfl rfl rfl (fun hm => absurd hm hlive)
      · intro hc
        exact absurd (hce hc _ hmem) (by simp)
      · intro x hx he
        rcases List.mem_or_eq_of_mem_set hx with hx' | hx'
        · have := (hej x hx' he).2
          simp [hj] at this
        · simp [hx'] at he
    · rename_i hj
      split at h
      · rename_i hclosed
        simp only [Option.some.injEq] at h
        subst h
        have hv' := hv .exited
        have hb' := hb .exited
        simp only [WorkerState.value, WorkerState.bad, add_zero] at hv' hb'
        refine ⟨by simpa using hwl, hjc, hrc, ?_, ?_, ?_, hci, ?_, ?_⟩
        · rw [← hval]
          simp only [Pool.value, hv']
        · intro hpn
          rw [← hbad hpn]
          simp only [Pool.bad, hb']
        · exact mainOk_congr p _ hmain rfl rfl rfl (fun hm => absurd hm hlive)
        · intro hc
          exact absurd (hce hc _ hmem) (by simp)
        · intro x _ _
          exact ⟨hclosed, hj⟩
      · simp at h
  · -- inside `processFile`
    rename_i filename hw
    have hmem := mem_of_getElem? _ _ _ hw
    have hlive := not_returned_of_live p hmain hce _ hmem (by simp)
    have hv := fun w' => sum_map_set (WorkerState.value root) p.workers i _ w' hw
    have hb := fun w' => sum_map_set (WorkerState.bad root) p.workers i _ w' hw
    split at h
    · rename_i result hpf
      simp only [Option.some.injEq] at h
      subst h
      have hv' := hv (.sending result)
      have hb' := hb (.sending result)
      rw [value_processing_ok root filename result hpf] at hv'
      rw [bad_processing root filename (by simp [panics, hpf])] at hb'
      simp only [WorkerState.value, WorkerState.bad, add_zero] at hv' hb'
      have hv'' := add_right_cancel hv'
      refine ⟨by simpa using hwl, hjc, hrc, ?_, ?_, ?_, hci, ?_, ?_⟩
      · rw [← hval]
        simp only [Pool.value, hv'']
      · intro hpn
        rw [← hbad hpn]
        simp only [Pool.bad, hb']
      · exact mainOk_congr p _ hmain rfl rfl rfl (fun hm => absurd hm hlive)
      · intro hc
        exact absurd (hce hc _ hmem) (by simp)
      · intro x hx he
        rcases List.mem_or_eq_of_mem_set hx with hx' | hx'
        · exact hej x hx' he
        · simp [hx'] at he
    · rename_i hpf
      simp only [Option.some.injEq] at h
      subst h
      have hv' := hv .receiving
      have hb' := hb .receiving
      rw [value_processing_err root filename hpf] at hv'
      rw [bad_processing root filename (by simp [panics, hpf])] at hb'
      simp only [WorkerState.value, WorkerState.bad, add_zero] at hv' hb'
      refine ⟨by simpa using hwl, hjc, hrc, ?_, ?_, ?_, hci, ?_, ?_⟩
      · rw [← hval]
        simp only [Pool.value, hv']
      · intro hpn
        rw [← hbad hpn]
        simp only [Pool.bad, hb']
      · exact mainOk_congr p _ hmain rfl rfl rfl (fun hm => absurd hm hlive)
      · intro hc
        exact absurd (hce hc _ hmem) (by simp)
      · intro x hx he
        rcases List.mem_or_eq_of_mem_set hx with hx' | hx'
        · exact hej x hx' he
        · simp [hx'] at he
    · rename_i status hpf
      simp only [Option.some.injEq] at h
      subst h
      refine ⟨hwl, hjc, hrc, ?_, ?_, ?_, hci, hce, hej⟩
      · rw [← hval]
        simp only [Pool.value]
      · intro hpn
        simp at hpn
      · unfold Pool.mainOk at hmain ⊢
        cases hpm : p.main with
        | feeding rest => simpa [hpm] using hmain
        | spawning => simpa [hpm] using hmain
        | draining => simpa [hpm] using hmain
        | returned => exact absurd hpm hlive
  · -- at `results <- result`
    rename_i result hw
    have hmem := mem_of_getElem? _ _ _ hw
    have hlive := not_returned_of_live p hmain hce _ hmem (by simp)
    have hv' := sum_map_set (WorkerState.value root) p.workers i _ .receiving hw
    have hb' := sum_map_set (WorkerState.bad root) p.workers i _ .receiving hw
    simp only [WorkerState.value, WorkerState.bad, add_zero] at hv' hb'
    split at h
    · simp only [Option.some.injEq] at h
      subst h
      refine ⟨by simpa using hwl, hjc, hrc, ?_, ?_, ?_, hci, ?_, ?_⟩
      · rw [← hval]
        simp only [Pool.value, ← hv']
        rw [coe_append_singleton]
        abel
      · intro hpn
        rw [← hbad hpn]
        simp only [Pool.bad, hb']
      · exact mainOk_congr p _ hmain rfl rfl rfl (fun hm => absurd hm hlive)
      · intro hc
        exact absurd (hce hc _ hmem) (by simp)
      · intro x hx he
        rcases List.mem_or_eq_of_mem_set hx with hx' | hx'
        · exact hej x hx' he
        · simp [hx'] at he
    · simp at h
  · simp at h

/-- The step of the closing goroutine keeps the invariant. -/
theorem inv_stepCloser (root : Root) (files : List String) (numWorkers : Nat)
    (p q : Pool) (hinv : Inv root files numWorkers p)
    (h : stepCloser p = some q) : Inv root files numWorkers q := by
  obtain ⟨hwl, hjc, hrc, hval, hbad, hmain, hci, hce, hej⟩ := hinv
  unfold stepCloser at h
  split at h
  · rename_i hc
    split at h
    · rename_i hall
      simp only [Option.some.injEq] at h
      subst h
      refine ⟨hwl, hjc, hrc, ?_, ?_, ?_, by simp, ?_, hej⟩
      · rw [← hval]
        simp only [Pool.value]
      · intro hpn
        rw [← hbad hpn]
        simp only [Pool.bad]
      · unfold Pool.mainOk at hmain ⊢
        cases hpm : p.main with
        | feeding rest => simp [hpm, hc] at hmain
        | spawning => simp [hpm, hc] at hmain
        | draining =>
          simp only [hpm] at hmain
          simpa using hmain.1
        | returned => simp [hpm, hc] at hmain
      · intro _ w hw
        have := List.all_eq_true.mp hall w hw
        cases w <;> simp_all [WorkerState.isExited]
    · simp at h
  · simp at h

/-- Every step keeps the invariant. -/
theorem inv_step (root : Root) (files : List String) (numWorkers : Nat)
    (a : Action) (p q : Pool) (hinv : Inv root files numWorkers p)
    (h : step root a p = some q) : Inv root files numWorkers q := by
  unfold step at h
  split at h
  · simp at h
  · rename_i hp
    have hp' : p.panicked = none := by
      cases hpp : p.panicked with
      | none => rfl
      | some st => simp [hpp] at hp
    cases a with
    | main => exact inv_stepMain root files numWorkers p q hinv hp' h
    | worker i => exact inv_stepWorker root files numWorkers i p q hinv h
    | closer => exact inv_stepCloser root files numWorkers p q hinv h

/-- The invariant holds along every execution. -/
theorem inv_run (root : Root) (files : List String) (numWorkers : Nat) (p q : Pool)
    (schedule : List Action) (hinv : Inv root files numWorkers p)
    (h : Run root p schedule q) : Inv root files numWorkers q := by
  induction h with
  | nil => exact hinv
  | cons hstep _ ih => exact ih (inv_step root files numWorkers _ _ _ hinv hstep)

/-- The invariant holds in every state of a scheduled run. -/
theorem inv_runSchedule (root : Root) (files : List String) (numWorkers : Nat)
    (schedule : List Action) (p : Pool) (hinv : Inv root files numWorkers p) :
    Inv root files numWorkers (runSchedule root schedule p) := by
  induction schedule generalizing p with
  | nil => exact hinv
  | cons a rest ih =>
    simp only [runSchedule]
    cases hs : step root a p with
    | none => exact ih p hinv
    | some q => exact ih q (inv_step root files numWorkers a p q hinv hs)

/-- An execution is no longer than the potential it uses up. -/
theorem run_length (root : Root) (p q : Pool) (schedule : List Action)
    (h : Run root p schedule q) : q.potential + schedule.length ≤ p.potential := by
  induction h with
  | nil => simp
  | cons hstep _ ih =>
    have := step_potential root _ _ _ hstep
    simp only [List.length_cons]
    omega

/-- A sum of multisets over workers that have all exited is empty. -/
theorem sum_value_exited (root : Root) (l : List WorkerState)
    (h : ∀ w ∈ l, w = .exited) : (l.map (WorkerState.value root)).sum = 0 := by
  induction l with
  | nil => simp
  | cons x l ih =>
    have hx := h x (List.mem_cons_self _ _)
    subst hx
    simp [WorkerState.value, ih (fun w hw => h w (List.mem_cons_of_mem _ hw))]

/-- No exited worker holds a bad file. -/
theorem sum_bad_exited (root : Root) (l : List WorkerState)
    (h : ∀ w ∈ l, w = .exited) : (l.map (WorkerState.bad root)).sum = 0 := by
  induction l with
  | nil => simp
  | cons x l ih =>
    have hx := h x (List.mem_cons_self _ _)
    subst hx
    simp [WorkerState.bad, ih (fun w hw => h w (List.mem_cons_of_mem _ hw))]

/-- Once the caller has returned, with at least one worker, the returned list
holds each result of `processFile` exactly once, and no file panics. -/
theorem returned_perm (root : Root) (files : List String) (numWorkers : Nat)
    (hn : 0 < numWorkers) (p : Pool) (hinv : Inv root files numWorkers p)
    (hm : p.main = .returned) :
    p.resultList.Perm (okResults root files) ∧ p.panicked = none ∧
      files.countP (panics root) = 0 := by
  obtain ⟨hwl, hjc, hrc, hval, hbad, hmain, hci, hce, hej⟩ := hinv
  simp only [Pool.mainOk, hm] at hmain
  obtain ⟨hjcl, hcl, hres, hpn⟩ := hmain
  have hall := hce hcl
  have hne : p.workers ≠ [] := by
    intro h0
    rw [h0] at hwl
    simp at hwl
    omega
  obtain ⟨w, hw⟩ := List.exists_mem_of_ne_nil _ hne
  have hjobs := (hej w hw (hall w hw)).2
  refine ⟨?_, hpn, ?_⟩
  · apply Multiset.coe_eq_coe.mp
    rw [← hval]
    simp [Pool.value, hm, MainState.remaining, hres, hjobs, sum_value_exited root _ hall,
      okResults]
  · rw [← hbad hpn]
    simp [Pool.bad, hm, MainState.remaining, hjobs, sum_bad_exited root _ hall]

/-- A worker that holds a result finds room in `results`: the channel has one
slot per file. -/
theorem results_room (root : Root) (files : List String) (numWorkers : Nat)
    (p : Pool) (hinv : Inv root files numWorkers p) (i : Nat) (result : OptimizedResult)
    (hw : p.workers[i]? = some (.sending result)) :
    p.results.length < p.resultsCap := by
  have hs := sum_map_set (WorkerState.value root) p.workers i _ .exited hw
  simp only [WorkerState.value, add_zero] at hs
  have hcard := congrArg Multiset.card hinv.valueEq
  rw [Pool.value, ← hs] at hcard
  simp only [Multiset.card_add, Multiset.coe_card, Multiset.card_singleton] at hcard
  have hle : (okResults root files).length ≤ files.length :=
    List.length_filterMap_le _ _
  rw [hinv.resultsCapEq]
  omega

/-- A worker still in its loop can step when `jobs` holds a file or is
closed. -/
theorem worker_can_step (root : Root) (files : List String) (numWorkers : Nat)
    (p : Pool) (hinv : Inv root files numWorkers p) (i : Nat) (w : WorkerState)
    (hw : p.workers[i]? = some w) (hne : w ≠ .exited)
    (hjobs : p.jobs ≠ [] ∨ p.jobsClosed = true) :
    ∃ q, stepWorker root i p = some q := by
  cases w with
  | receiving =>
    cases hj : p.jobs with
    | cons filename rest => exact Option.isSome_iff_exists.mp (by simp only [stepWorker, hw, hj, Option.isSome_some])
    | nil =>
      have hcl : p.jobsClosed = true := by
        rcases hjobs with h | h
        · exact absurd hj h
        · exact h
      exact Option.isSome_iff_exists.mp (by simp only [stepWorker, hw, hj, hcl, if_true, Option.isSome_some])
  | processing filename =>
    cases hpf : processFile root filename with
    | ok result => exact Option.isSome_iff_exists.mp (by simp only [stepWorker, hw, hpf, Option.isSome_some])
    | openError => exact Option.isSome_iff_exists.mp (by simp only [stepWorker, hw, hpf, Option.isSome_some])
    | panicIndex status => exact Option.isSome_iff_exists.mp (by simp only [stepWorker, hw, hpf, Option.isSome_some])
  | sending result =>
    have hroom := results_room root files numWorkers p hinv i result hw
    exact Option.isSome_iff_exists.mp (by simp only [stepWorker, hw, hroom, if_true, Option.isSome_some])
  | exited => exact absurd rfl hne

/-- Without a panic, a step of the scheduler is the step of the goroutine. -/
theorem step_eq (root : Root) (a : Action) (p : Pool) (hp : p.panicked = none) :
    step root a p =
      match a with
      | .main => stepMain p
      | .worker i => stepWorker root i p
      | .closer => stepCloser p := by
  simp [step, hp]

/-- A goroutine whose step function returns a state gives a step of the run. -/
theorem can_step (root : Root) (a : Action) (p : Pool) (hp : p.panicked = none)
    (h : (match a with
          | .main => stepMain p
          | .worker i => stepWorker root i p
          | .closer => stepCloser p).isSome = true) :
    ∃ a q, step root a p = some q := by
  rw [← step_eq root a p hp] at h
  obtain ⟨q, hq⟩ := Option.isSome_iff_exists.mp h
  exact ⟨a, q, hq⟩

/-- No deadlock: with at least one worker, as long as the caller has not
returned and nothing has panicked, some goroutine can step. -/
theorem progress (root : Root) (files : List String) (numWorkers : Nat)
    (hn : 0 < numWorkers) (p : Pool) (hinv : Inv root files numWorkers p)
    (hp : p.panicked = none) (hm : p.main ≠ .returned) :
    ∃ a q, step root a p = some q := by
  have hmain := hinv.mainOk
  cases hpm : p.main with
  | returned => exact absurd hpm hm
  | spawning =>
    exact can_step root .main p hp (by simp only [stepMain, hpm, Option.isSome_some])
  | feeding l =>
    simp only [Pool.mainOk, hpm] at hmain
    cases l with
    | nil =>
      exact can_step root .main p hp (by simp only [stepMain, hpm, Option.isSome_some])
    | cons filename rest =>
      by_cases hroom : p.jobs.length < p.jobsCap
      · exact can_step root .main p hp
          (by simp only [stepMain, hpm, hroom, if_true, Option.isSome_some])
      · have hjobs : p.jobs ≠ [] := by
          intro h0
          rw [h0, hinv.jobsCapEq] at hroom
          simp at hroom
          omega
        have h0 : 0 < p.workers.length := by rw [hinv.workersLen]; exact hn
        have hw : p.workers[0]? = some p.workers[0] := List.getElem?_eq_getElem h0
        have hne : p.workers[0] ≠ .exited := by
          intro he
          have := (hinv.exitedJobs _ (List.getElem_mem h0) he).1
          simp [hmain.1] at this
        obtain ⟨q, hq⟩ := worker_can_step root files numWorkers p hinv 0 _ hw hne
          (Or.inl hjobs)
        exact ⟨.worker 0, q, by rw [step_eq root _ p hp]; exact hq⟩
  | draining =>
    simp only [Pool.mainOk, hpm] at hmain
    cases hr : p.results with
    | cons result rest =>
      exact can_step root .main p hp
        (by simp only [stepMain, hpm, hr, Option.isSome_some])
    | nil =>
      by_cases hcl : p.resultsClosed = true
      · exact can_step root .main p hp
          (by simp only [stepMain, hpm, hr, hcl, if_true, Option.isSome_some])
      · have hnc : p.closer ≠ .closed := fun h => hcl (hinv.closedIff.mpr h)
        have hwait : p.closer = .waiting := by
          cases hc : p.closer with
          | notStarted => exact absurd hc hmain.2
          | waiting => rfl
          | closed => exact absurd hc hnc
        by_cases hall : p.workers.all WorkerState.isExited = true
        · exact can_step root .closer p hp
            (by simp only [stepCloser, hwait, hall, if_true, Option.isSome_some])
        · have hex : ∃ w ∈ p.workers, ¬ w.isExited = true := by
            by_contra hcon
            push_neg at hcon
            exact hall (List.all_eq_true.mpr hcon)
          obtain ⟨w, hwm, hwe⟩ := hex
          obtain ⟨i, hi⟩ := List.getElem?_of_mem hwm
          have hne : w ≠ .exited := by
            intro he
            subst he
            simp [WorkerState.isExited] at hwe
          obtain ⟨q, hq⟩ := worker_can_step root files numWorkers p hinv i w hi hne
            (Or.inr hmain.1)
          exact ⟨.worker i, q, by rw [step_eq root _ p hp]; exact hq⟩

/-- The caller never raises the panic flag. -/
theorem stepMain_panicked (p q : Pool) (h : stepMain p = some q) :
    q.panicked = p.panicked := by
  unfold stepMain at h
  repeat' split at h
  all_goals first
    | (simp at h; done)
    | (simp only [Option.some.injEq] at h; subst h; rfl)

/-- The closing goroutine never raises the panic flag. -/
theorem stepCloser_panicked (p q : Pool) (h : stepCloser p = some q) :
    q.panicked = p.panicked := by
  unfold stepCloser at h
  repeat' split at h
  all_goals first
    | (simp at h; done)
    | (simp only [Option.some.injEq] at h; subst h; rfl)

/-- A worker raises the panic flag only on a file on which `processFile`
panics. -/
theorem stepWorker_panicked (root : Root) (i : Nat) (p q : Pool)
    (h : stepWorker root i p = some q) :
    q.panicked = p.panicked ∨
      ∃ filename, p.workers[i]? = some (.processing filename) ∧
        panics root filename = true := by
  unfold stepWorker at h
  split at h
  · simp at h
  · left
    repeat' split at h
    all_goals first
      | (simp at h; done)
      | (simp only [Option.some.injEq] at h; subst h; rfl)
  · rename_i filename hw
    split at h
    · left; simp only [Option.some.injEq] at h; subst h; rfl
    · left; simp only [Option.some.injEq] at h; subst h; rfl
    · rename_i status hpf
      right
      exact ⟨filename, hw, by simp [panics, hpf]⟩
  · left
    repeat' split at h
    all_goals first
      | (simp at h; done)
      | (simp only [Option.some.injEq] at h; subst h; rfl)
  · simp at h

/-- When `processFile` panics on none of the files, no step raises the panic
flag. -/
theorem step_no_panic (root : Root) (files : List String) (numWorkers : Nat)
    (hvalid : files.countP (panics root) = 0) (a : Action) (p q : Pool)
    (hinv : Inv root files numWorkers p) (h : step root a p = some q) :
    q.panicked = none := by
  have hp : p.panicked = none := by
    cases hpp : p.panicked with
    | none => rfl
    | some st => simp [step, hpp] at h
  rw [step_eq root a p hp] at h
  cases a with
  | main => rw [stepMain_panicked p q h, hp]
  | closer => rw [stepCloser_panicked p q h, hp]
  | worker i =>
    rcases stepWorker_panicked root i p q h with heq | ⟨filename, hw, hbadf⟩
    · rw [heq, hp]
    · exfalso
      have hs := sum_map_set (WorkerState.bad root) p.workers i _ .exited hw
      have hb := hinv.badEq hp
      rw [hvalid] at hb
      simp only [Pool.bad] at hb
      simp only [WorkerState.bad, List.countP_cons, List.countP_nil, hbadf, if_true,
        add_zero] at hs
      omega

/-- When `processFile` panics on none of the files, a scheduled run never
raises the panic flag. -/
theorem runSchedule_no_panic (root : Root) (files : List String) (numWorkers : Nat)
    (hvalid : files.countP (panics root) = 0) (schedule : List Action) (p : Pool)
    (hinv : Inv root files numWorkers p) (hp : p.panicked = none) :
    (runSchedule root schedule p).panicked = none := by
  induction schedule generalizing p with
  | nil => exact hp
  | cons a rest ih =>
    simp only [runSchedule]
    cases hs : step root a p with
    | none => exact ih p hinv hp
    | some q =>
      exact ih q (inv_step root files numWorkers a p q hinv hs)
        (step_no_panic root files numWorkers hvalid a p q hinv hs)

/-- A scheduled run of enabled picks is an execution. -/
theorem run_runSchedule (root : Root) (p q : Pool) (schedule : List Action)
    (h : Run root p schedule q) : runSchedule root schedule p = q := by
  induction h with
  | nil => rfl
  | cons hstep _ ih => simp only [runSchedule, hstep, ih]

/-- From any state of the invariant, when no file panics, some execution
leads the caller to its return. -/
theorem exists_run (root : Root) (files : List String) (numWorkers : Nat)
    (hn : 0 < numWorkers) (hvalid : files.countP (panics root) = 0) (k : Nat) :
    ∀ p : Pool, p.potential ≤ k → Inv root files numWorkers p → p.panicked = none →
      ∃ schedule q, Run root p schedule q ∧ q.main = .returned := by
  induction k with
  | zero =>
    intro p hk hinv hp
    by_cases hm : p.main = .returned
    · exact ⟨[], p, Run.nil p, hm⟩
    · obtain ⟨a, q, hq⟩ := progress root files numWorkers hn p hinv hp hm
      have := step_potential root a p q hq
      omega
  | succ k ih =>
    intro p hk hinv hp
    by_cases hm : p.main = .returned
    · exact ⟨[], p, Run.nil p, hm⟩
    · obtain ⟨a, q, hq⟩ := progress root files numWorkers hn p hinv hp hm
      have hlt := step_potential root a p q hq
      obtain ⟨schedule, r, hrun, hr⟩ := ih q (by omega)
        (inv_step root files numWorkers a p q hinv hq)
        (step_no_panic root files numWorkers hvalid a p q hinv hq)
      exact ⟨a :: schedule, r, Run.cons hq hrun, hr⟩

/-- A file that fails to open, or opens on in-range outcomes, does not make
`processFile` panic; it gives a result exactly when it opens, and the result
carries the file's name. -/
theorem processFile_of_valid (root : Root) (filename : String)
    (h : ∀ stream, root filename = some stream → ∀ o ∈ decoded stream, o.inRange = true) :
    panics root filename = false ∧
      (processFile root filename).toOption.isSome = (root filename).isSome ∧
      ∀ r, (processFile root filename).toOption = some r → r.FileName = filename := by
  cases hr : root filename with
  | none =>
    have hpf : processFile root filename = .openError := by simp only [processFile, hr]
    simp [panics, hpf, FileOutcome.toOption]
  | some stream =>
    obtain ⟨r, hpf, hname, -⟩ := processFile_ok root filename stream hr (h stream hr)
    refine ⟨by simp [panics, hpf], by simp [hpf, FileOutcome.toOption], ?_⟩
    intro r' hr'
    simp only [hpf, FileOutcome.toOption, Option.some.injEq] at hr'
    rw [← hr']
    exact hname

/-- When every file that opens decodes in range, `processFile` panics on
none of the files. -/
theorem countP_panics_of_valid (root : Root) (files : List String)
    (hvalid : ∀ f ∈ files, ∀ stream, root f = some stream →
      ∀ o ∈ decoded stream, o.inRange = true) :
    files.countP (panics root) = 0 := by
  rw [List.countP_eq_zero]
  intro f hf
  simp [(processFile_of_valid root f (hvalid f hf)).1]

/-- When every file that opens decodes in range, the names of the results are
the names of the files that open, in order. -/
theorem okResults_names (root : Root) (files : List String)
    (hvalid : ∀ f ∈ files, ∀ stream, root f = some stream →
      ∀ o ∈ decoded stream, o.inRange = true) :
    (okResults root files).map (fun r => r.FileName) =
      files.filter (fun f => (root f).isSome) := by
  induction files with
  | nil => rfl
  | cons f rest ih =>
    have ih' := ih (fun g hg => hvalid g (List.mem_cons_of_mem _ hg))
    obtain ⟨-, hsome, hname⟩ := processFile_of_valid root f (hvalid f (List.mem_cons_self _ _))
    unfold okResults at ih' ⊢
    cases hpf : (processFile root f).toOption with
    | none =>
      have hrf : (root f).isSome = false := by rw [← hsome, hpf]; rfl
      simp only [List.filterMap_cons, hpf, List.filter_cons, hrf]
      exact ih'
    | some r =>
      have hrf : (root f).isSome = true := by rw [← hsome, hpf]; rfl
      simp only [List.filterMap_cons, hpf, List.filter_cons, hrf, if_true, List.map_cons,
        hname r hpf, ih']

/-- A list that `processFiles` returns holds each result of `processFile`
exactly once, and then `processFile` panics on none of the files. -/
theorem processFiles_some (root : Root) (files : List String) (numWorkers : Nat)
    (hn : 0 < numWorkers) (schedule : List Action) (results : List OptimizedResult)
    (h : processFiles root files numWorkers schedule = some results) :
    results.Perm (okResults root files) ∧ files.countP (panics root) = 0 := by
  unfold processFiles at h
  simp only at h
  split at h
  · rename_i hm
    simp only [Option.some.injEq] at h
    subst h
    have hinv := inv_runSchedule root files numWorkers schedule _
      (inv_init root files numWorkers)
    have := returned_perm root files numWorkers hn _ hinv hm
    exact ⟨this.1, this.2.2⟩
  · simp at h

/-- With a file on which `processFile` panics, `processFiles` returns under
no schedule. -/
theorem processFiles_none_of_panics (root : Root) (files : List String)
    (numWorkers : Nat) (hn : 0 < numWorkers) (filename : String)
    (hf : filename ∈ files) (hp : panics root filename = true)
    (schedule : List Action) : processFiles root files numWorkers schedule = none := by
  cases h : processFiles root files numWorkers schedule with
  | none => rfl
  | some results =>
    have := (processFiles_some root files numWorkers hn schedule results h).2
    rw [List.countP_eq_zero] at this
    exact absurd hp (this filename hf)

/-- When no file panics, some schedule makes `processFiles` return. -/
theorem processFiles_returns (root : Root) (files : List String) (numWorkers : Nat)
    (hn : 0 < numWorkers) (hvalid : files.countP (panics root) = 0) :
    ∃ schedule results, processFiles root files numWorkers schedule = some results := by
  obtain ⟨schedule, q, hrun, hq⟩ := exists_run root files numWorkers hn hvalid _
    (Pool.init files numWorkers) (le_refl _) (inv_init root files numWorkers) rfl
  refine ⟨schedule, q.resultList, ?_⟩
  unfold processFiles
  simp only [run_runSchedule root _ _ _ hrun, hq, if_true]

/-- Every file of the scenario directory decodes in range. -/
theorem scenarioRoot_valid (f : String) (stream : List DecodeOutcome)
    (hs : scenarioRoot f = some stream) : ∀ o ∈ decoded stream, o.inRange = true := by
  unfold scenarioRoot at hs
  split at hs
  · simp only [Option.some.injEq] at hs
    subst hs
    decide
  · split at hs
    · simp only [Option.some.injEq] at hs
      subst hs
      decide
    · split at hs
      · simp only [Option.some.injEq] at hs
        subst hs
        decide
      · simp at hs

/-! ## Claims about the merge -/

/-- C1: for every list of per-file results, the `totalRequests` accumulated
by `printResults` equals the sum of the `TotalCount` fields of the list. -/
theorem printResults_total (results : List OptimizedResult) :
    (printResults results).totalRequests =
      (results.map (fun r => r.TotalCount)).sum :=
  printResults_total_sum results

/-- C2: for every list of per-file results and every permutation of it, the
merge of `printResults` accumulates the same total and the same 600-slot
table. -/
theorem printResults_perm (results results' : List OptimizedResult)
    (h : results.Perm results') : printResults results = printResults results' := by
  apply Totals.eq_of
  · rw [printResults_total_sum, printResults_total_sum]
    exact (h.map _).sum_eq
  · intro s
    rw [printResults_counts_pos, printResults_counts_pos]
    exact (h.map _).sum_eq

/-- C2, at two results delivered in either order. -/
theorem printResults_perm_witness :
    [newResult "a", { newResult "b" with TotalCount := 2 }].Perm
        [{ newResult "b" with TotalCount := 2 }, newResult "a"] ∧
      printResults [newResult "a", { newResult "b" with TotalCount := 2 }] =
        printResults [{ newResult "b" with TotalCount := 2 }, newResult "a"] :=
  ⟨List.Perm.swap _ _ _, printResults_perm _ _ (List.Perm.swap _ _ _)⟩

/-- C3: for every list of per-file results and every status index `s` in
`[0, 600)`, the merged table of `printResults` holds at `s` the sum over all
results of `StatusCounts[s]`. The counters of a per-file result are not
negative (`processFile` starts them at zero and only increments them,
`okResults_nonneg`), which is the hypothesis; the merge skips a slot under
its guard `count > 0` only when the slot adds nothing. -/
theorem printResults_counts (results : List OptimizedResult) (s : Fin 600)
    (h : ∀ r ∈ results, 0 ≤ r.StatusCounts s) :
    (printResults results).totalStatusCounts s =
      (results.map (fun r => r.StatusCounts s)).sum := by
  rw [printResults_counts_pos]
  congr 1
  apply List.map_congr_left
  intro r hr
  exact max_eq_left (h r hr)

/-- C3, at the three per-file results of the scenario and slot 200. -/
theorem printResults_counts_witness :
    (∀ r ∈ scenarioResults, 0 ≤ r.StatusCounts 200) ∧
      (printResults scenarioResults).totalStatusCounts 200 =
        (scenarioResults.map (fun r => r.StatusCounts 200)).sum :=
  ⟨fun r hr => okResults_nonneg scenarioRoot _ r hr 200,
    printResults_counts scenarioResults 200
      (fun r hr => okResults_nonneg scenarioRoot _ r hr 200)⟩

/-- The hypothesis of C3 is needed for struct values that `processFile` never
returns: a table holding `-1` at slot 200 is skipped by the guard `count > 0`,
so the merged slot stays `0` while the element-wise sum is `-1`. -/
theorem printResults_skips_negative :
    (printResults [{ newResult "a" with
        StatusCounts := fun s => if s = 200 then -1 else 0 }]).totalStatusCounts 200 = 0 ∧
      ([({ newResult "a" with
        StatusCounts := fun s => if s = 200 then -1 else 0 } : OptimizedResult)].map
          (fun r => r.StatusCounts 200)).sum = -1 := by
  constructor
  · rw [printResults_counts_pos]
    simp
  · simp

/-! ## Claims about `processFile` -/

/-- C4, as stated, fails: on a file whose only record decodes with status 999
(or with status -1) `processFile` does not complete normally, it ends in the
run-time panic of the index expression. -/
theorem processFile_status_999 :
    processFile (fun _ => some [.record 999]) "access_1.json" = .panicIndex 999 ∧
      processFile (fun _ => some [.record (-1)]) "access_1.json" = .panicIndex (-1) :=
  ⟨rfl, rfl⟩

/-- C4, amended: for every file that opens and whose stream holds a
successfully decoded record with a status outside `[0, 600)`, `processFile`
ends in the run-time panic of `StatusCounts[entry.Status]` at the first such
record: it returns neither a result nor an error, and the record is not
skipped. -/
theorem processFile_out_of_range (root : Root) (filename : String)
    (stream : List DecodeOutcome) (hopen : root filename = some stream)
    (hbad : ∃ o ∈ decoded stream, o.inRange = false) :
    ∃ pre status post, stream = pre ++ .record status :: post ∧
      (∀ o ∈ pre, o.isRecord = true ∧ o.inRange = true) ∧
      ¬ (0 ≤ status ∧ status < 600) ∧
      processFile root filename = .panicIndex status := by
  obtain ⟨pre, status, post, heq, hpre, hst⟩ := exists_first_out_of_range stream hbad
  refine ⟨pre, status, post, heq, hpre, hst, ?_⟩
  simp only [processFile, hopen, heq, decodeLoop_panic pre post status hpre hst]

/-- C4 amended, at a valid record followed by a record of status 999. -/
theorem processFile_out_of_range_witness :
    (∃ o ∈ decoded [DecodeOutcome.record 200, .record 999, .record 404],
        o.inRange = false) ∧
      ∃ pre status post,
        [DecodeOutcome.record 200, .record 999, .record 404] =
          pre ++ .record status :: post ∧
        (∀ o ∈ pre, o.isRecord = true ∧ o.inRange = true) ∧
        ¬ (0 ≤ status ∧ status < 600) ∧
        processFile (fun _ => some [.record 200, .record 999, .record 404])
          "access_1.json" = .panicIndex status :=
  ⟨⟨.record 999, by decide, by decide⟩,
    processFile_out_of_range (fun _ => some [.record 200, .record 999, .record 404])
      "access_1.json" _ rfl ⟨.record 999, by decide, by decide⟩⟩

/-- C5: for every file that opens and whose successfully decoded records all
have a status in `[0, 600)`, `processFile` returns a result with `TotalCount`
equal to the sum of the 600 slots of `StatusCounts`, and the equality holds
for the loop state after every number `k` of records of the stream. -/
theorem processFile_total_eq_sum (root : Root) (filename : String)
    (stream : List DecodeOutcome) (hopen : root filename = some stream)
    (hrange : ∀ o ∈ decoded stream, o.inRange = true) :
    (∃ result, processFile root filename = .ok result ∧
        result.TotalCount = ∑ s, result.StatusCounts s) ∧
      ∀ k : Nat, ∃ r, decodeLoop false (stream.take k) (newResult filename) = .ok r ∧
        r.TotalCount = ∑ s, r.StatusCounts s := by
  have hinit : (newResult filename).TotalCount = ∑ s, (newResult filename).StatusCounts s := by
    simp [newResult]
  constructor
  · obtain ⟨r', h, -⟩ := decodeLoop_ok stream hrange (newResult filename)
    exact ⟨r', by simp only [processFile, hopen, h],
      decodeLoop_sum stream false _ r' h hinit⟩
  · intro k
    obtain ⟨r', h, -⟩ := decodeLoop_ok (stream.take k)
      (fun o ho => hrange o (mem_decoded_take stream k o ho)) (newResult filename)
    exact ⟨r', h, decodeLoop_sum _ false _ r' h hinit⟩

/-- C5, at a file of two valid records and a malformed third one. -/
theorem processFile_total_eq_sum_witness :
    (∀ o ∈ decoded [DecodeOutcome.record 200, .record 404, .failure],
        o.inRange = true) ∧
      (∃ result,
        processFile (fun _ => some [.record 200, .record 404, .failure])
          "access_1.json" = .ok result ∧
        result.TotalCount = ∑ s, result.StatusCounts s) ∧
      ∀ k : Nat, ∃ r,
        decodeLoop false ([DecodeOutcome.record 200, .record 404, .failure].take k)
          (newResult "access_1.json") = .ok r ∧
        r.TotalCount = ∑ s, r.StatusCounts s :=
  ⟨by decide,
    processFile_total_eq_sum (fun _ => some [.record 200, .record 404, .failure])
      "access_1.json" _ rfl (by decide)⟩

/-- C6, at a file with one malformed record followed by one valid record of
status 200: `processFile` returns a result and no error, but the failed
`Decode` ends the loop, so the valid record is not counted: the total is 0
and slot 200 holds 0. With the valid record first, it is counted. -/
theorem processFile_stops_at_failure :
    (∃ result,
        processFile (fun _ => some [.failure, .record 200]) "access_1.json" =
          .ok result ∧
        result.TotalCount = 0 ∧ result.StatusCounts 200 = 0) ∧
      ∃ result,
        processFile (fun _ => some [.record 200, .failure]) "access_1.json" =
          .ok result ∧
        result.TotalCount = 1 ∧ result.StatusCounts 200 = 1 := by
  constructor
  · exact ⟨newResult "access_1.json", rfl, rfl, rfl⟩
  · obtain ⟨result, h, -, ht, hc⟩ :=
      processFile_ok (fun _ => some [.record 200, .failure]) "access_1.json" _ rfl
        (by decide)
    refine ⟨result, h, ?_, ?_⟩
    · rw [ht]; decide
    · rw [hc 200]; decide

/-! ## Claims about the scenario and the formatter -/

/-- C8, as stated, fails: the three files hold six records, so the merged
total is 6 and not 5, and the error rate is 50 and not 60 percent. -/
theorem scenario_total_six :
    (printResults scenarioResults).totalRequests = 6 ∧
      (printResults scenarioResults).totalRequests ≠ 5 ∧
      errorRate (printResults scenarioResults) ≠ 60 := by
  obtain ⟨-, htot, -, herr⟩ := scenario_values
  refine ⟨htot, by rw [htot]; decide, ?_⟩
  unfold errorRate
  rw [htot, herr]
  norm_num

/-- C8, amended: for the three files with statuses 200, 200, 404, then
200, 500, 500, then none, `processFile` returns a result for each, and merging
the three as `printResults` does gives global total 6, merged counts 3 at 200,
1 at 404, 2 at 500 and 0 in every other slot, an error count of 3 over the
statuses 400 to 599, and an error rate of exactly 3/6, that is 50 percent. -/
theorem scenario_report :
    scenarioResults.length = 3 ∧
      (printResults scenarioResults).totalRequests = 6 ∧
      (∀ s : Fin 600, (printResults scenarioResults).totalStatusCounts s =
        if s = 200 then 3 else if s = 404 then 1 else if s = 500 then 2 else 0) ∧
      errorCount (printResults scenarioResults).totalStatusCounts = 3 ∧
      errorRate (printResults scenarioResults) = 50 := by
  obtain ⟨hlen, htot, hcnt, herr⟩ := scenario_values
  refine ⟨hlen, htot, hcnt, herr, ?_⟩
  unfold errorRate
  rw [htot, herr]
  norm_num

/-- C10: for every integer `n` that is not negative (the counts `printResults`
passes), `formatNumber(n)` is the decimal string of `n` cut into groups of
digits joined by commas: every group has one to three digits, every group but
the first has exactly three, so one comma stands before each complete group
of three digits counted from the right; removing the commas gives the decimal
string of `n`; and a comma stands only between two digits, never at the start
of the string. -/
theorem formatNumber_groups (n : Int) (hn : 0 ≤ n) :
    (∃ groups : List (List Char),
        groups ≠ [] ∧ (toString n).data = groups.flatten ∧
        (formatNumber n).data = List.intercalate [','] groups ∧
        (∀ g ∈ groups, g ≠ [] ∧ g.length ≤ 3 ∧ ∀ c ∈ g, c.isDigit = true) ∧
        (∀ g ∈ groups.tail, g.length = 3)) ∧
      (formatNumber n).data.filter (fun c => c != ',') = (toString n).data ∧
      ∀ a t, (formatNumber n).data = a ++ ',' :: t →
        (∃ a' x, a = a' ++ [x] ∧ x.isDigit = true) ∧
          ∃ y t', t = y :: t' ∧ y.isDigit = true := by
  obtain ⟨m, -, hdata⟩ := toString_data n hn
  have hdig : ∀ c ∈ (toString n).data, c.isDigit = true := by
    rw [hdata]
    exact toDigitsCore_isDigit _ _ _ (by simp)
  have hne : (toString n).data ≠ [] := by
    rw [hdata]
    exact toDigits_ne_nil m
  have hcomma : ∀ c ∈ (toString n).data, c ≠ ',' := by
    intro c hc e
    subst e
    have := hdig _ hc
    simp at this
  refine ⟨?_, ?_, ?_⟩
  · obtain ⟨g, groups, hsplit, hg, hg3, -, hall, hfmt⟩ :=
      formatTail_groups (toString n).data hne false
    refine ⟨g :: groups, by simp, by simpa using hsplit, ?_, ?_, ?_⟩
    · rw [formatNumber_data, hfmt]
      simp
    · intro x hx
      have hsub : ∀ c ∈ x, c ∈ (toString n).data := by
        intro c hc
        rw [hsplit]
        rcases List.mem_cons.mp hx with rfl | hx'
        · exact List.mem_append_left _ hc
        · exact List.mem_append_right _ (List.mem_flatten.mpr ⟨x, hx', hc⟩)
      rcases List.mem_cons.mp hx with rfl | hx'
      · exact ⟨hg, hg3, fun c hc => hdig c (hsub c hc)⟩
      · have h3 := hall x hx'
        refine ⟨?_, by omega, fun c hc => hdig c (hsub c hc)⟩
        intro e
        rw [e] at h3
        simp at h3
    · intro x hx
      exact hall x (by simpa using hx)
  · rw [formatNumber_data]
    exact formatTail_filter _ hcomma false
  · intro a t hsplit
    rw [formatNumber_data] at hsplit
    obtain ⟨ht, ha⟩ := formatTail_comma _ hdig false a t hsplit
    refine ⟨?_, ht⟩
    rcases ha with ⟨-, hfalse⟩ | ha'
    · simp at hfalse
    · exact ha'

/-- C10, at 1234567 and 999: the outputs are "1,234,567" and "999", and
removing the commas of the first gives back "1234567". -/
theorem formatNumber_groups_witness :
    (0 : Int) ≤ 1234567 ∧
      formatNumber 1234567 = "1,234,567" ∧ formatNumber 999 = "999" ∧
      (formatNumber 1234567).data.filter (fun c => c != ',') =
        (toString (1234567 : Int)).data :=
  ⟨by decide, by decide, by decide, (formatNumber_groups 1234567 (by decide)).2.1⟩

/-- Outside the counts `printResults` passes: on -123 `formatNumber` puts a
comma right after the sign (and on -1234 it does not). -/
theorem formatNumber_neg :
    formatNumber (-123) = "-,123" ∧ formatNumber (-1234) = "-1,234" := by
  decide

/-! ## Claims about `processFiles` -/

/-- C7, as stated, fails: with the two files of `brokenRoot`, which both open,
the worker that reaches the record of status 999 panics, and under no schedule
does `processFiles` return a result list. -/
theorem processFiles_aborts :
    (runSchedule brokenRoot
        [.main, .worker 0, .main, .main, .main, .worker 0, .worker 0, .worker 0, .worker 0]
        (Pool.init ["access_1.json", "access_2.json"] 1)).panicked = some 999 ∧
      ¬ ∃ schedule results,
        processFiles brokenRoot ["access_1.json", "access_2.json"] 1 schedule =
          some results := by
  refine ⟨by decide, ?_⟩
  rintro ⟨schedule, results, h⟩
  rw [processFiles_none_of_panics brokenRoot _ 1 (by decide) "access_2.json" (by simp)
    (by decide) schedule] at h
  simp at h

/-- C7, amended: for every list of input files whose files that open decode
only statuses in `[0, 600)`, and at least one worker: a file that fails to
open makes `processFile` return an error and no result, and the worker that
holds it goes back to `range jobs` without sending; no run panics; some
schedule makes `processFiles` return; and every returned list has exactly one
entry per file that opens and none for the others. -/
theorem processFiles_skips_unopenable (root : Root) (files : List String)
    (numWorkers : Nat) (hn : 0 < numWorkers)
    (hvalid : ∀ f ∈ files, ∀ stream, root f = some stream →
      ∀ o ∈ decoded stream, o.inRange = true) :
    (∀ f, root f = none →
        processFile root f = .openError ∧
        ∀ (p : Pool) (i : Nat), p.workers[i]? = some (.processing f) →
          stepWorker root i p = some { p with workers := p.workers.set i .receiving }) ∧
      (∀ schedule,
        (runSchedule root schedule (Pool.init files numWorkers)).panicked = none) ∧
      (∃ schedule results, processFiles root files numWorkers schedule = some results) ∧
      (∀ schedule results, processFiles root files numWorkers schedule = some results →
        (results.map (fun r => r.FileName)).Perm
          (files.filter (fun f => (root f).isSome))) := by
  have hcount := countP_panics_of_valid root files hvalid
  refine ⟨?_, ?_, processFiles_returns root files numWorkers hn hcount, ?_⟩
  · intro f hf
    have hpf : processFile root f = .openError := by simp only [processFile, hf]
    refine ⟨hpf, fun p i hw => ?_⟩
    simp only [stepWorker, hw, hpf]
  · intro schedule
    exact runSchedule_no_panic root files numWorkers hcount schedule _
      (inv_init root files numWorkers) rfl
  · intro schedule results h
    have hperm := (processFiles_some root files numWorkers hn schedule results h).1
    rw [← okResults_names root files hvalid]
    exact hperm.map _

/-- C7 amended, at two workers on the scenario directory and a list with a
name that does not open: an explicit schedule returns the results of the two
files that open, and every returned list names exactly those two. -/
theorem processFiles_skips_unopenable_witness :
    (0 < 2 ∧ ∀ f ∈ ["access_1.json", "missing.json", "access_3.json"],
        ∀ stream, scenarioRoot f = some stream → ∀ o ∈ decoded stream, o.inRange = true) ∧
      (processFiles scenarioRoot ["access_1.json", "missing.json", "access_3.json"] 2
          [.main, .main, .worker 0, .worker 1, .main, .main, .main, .worker 1, .worker 1,
            .worker 0, .worker 0, .worker 0, .worker 1, .worker 1, .worker 1, .closer,
            .main, .main, .main]).map (fun l => l.map (fun r => r.FileName)) =
        some ["access_1.json", "access_3.json"] ∧
      ∀ schedule results,
        processFiles scenarioRoot ["access_1.json", "missing.json", "access_3.json"] 2
          schedule = some results →
        (results.map (fun r => r.FileName)).Perm ["access_1.json", "access_3.json"] := by
  have hvalid : ∀ f ∈ ["access_1.json", "missing.json", "access_3.json"],
      ∀ stream, scenarioRoot f = some stream → ∀ o ∈ decoded stream, o.inRange = true :=
    fun f _ stream hs => scenarioRoot_valid f stream hs
  refine ⟨⟨by decide, hvalid⟩, by decide, fun schedule results h => ?_⟩
  have := (processFiles_skips_unopenable scenarioRoot
    ["access_1.json", "missing.json", "access_3.json"] 2 (by decide) hvalid).2.2.2
    schedule results h
  simpa [scenarioRoot] using this

/-- C9, as stated, fails: on the file of `brokenRoot` that holds a record of
status 999, `processFiles` yields no result list, hence no report, with one
worker, with two, and with eight, whatever the schedule. -/
theorem processFiles_no_report :
    (¬ ∃ schedule results,
        processFiles brokenRoot ["access_2.json"] 1 schedule = some results) ∧
      (¬ ∃ schedule results,
        processFiles brokenRoot ["access_2.json"] 2 schedule = some results) ∧
      ¬ ∃ schedule results,
        processFiles brokenRoot ["access_2.json"] 8 schedule = some results := by
  refine ⟨?_, ?_, ?_⟩ <;>
  · rintro ⟨schedule, results, h⟩
    rw [processFiles_none_of_panics brokenRoot _ _ (by decide) "access_2.json" (by simp)
      (by decide) schedule] at h
    simp at h

/-- C9, amended: for every list of input files whose files that open decode
only statuses in `[0, 600)`, and every worker count of at least one (1, 2, the
number of CPUs): every execution of `processFiles` has at most
`5 * len(files) + numWorkers + 6` steps; as long as the caller has not
returned some goroutine can step, so every execution ends with the return of
the caller; the returned list holds the result of each successfully processed
file exactly once; and the totals merged by `printResults` are the same for
any two worker counts and any two schedules. -/
theorem processFiles_worker_count (root : Root) (files : List String)
    (numWorkers : Nat) (hn : 0 < numWorkers)
    (hvalid : ∀ f ∈ files, ∀ stream, root f = some stream →
      ∀ o ∈ decoded stream, o.inRange = true) :
    (∀ schedule p, Run root (Pool.init files numWorkers) schedule p →
        schedule.length ≤ 5 * files.length + numWorkers + 6) ∧
      (∀ schedule p, Run root (Pool.init files numWorkers) schedule p →
        p.main ≠ .returned → ∃ a q, step root a p = some q) ∧
      (∃ schedule results, processFiles root files numWorkers schedule = some results) ∧
      (∀ schedule results, processFiles root files numWorkers schedule = some results →
        results.Perm (okResults root files)) ∧
      (∀ numWorkers' schedule schedule' results results', 0 < numWorkers' →
        processFiles root files numWorkers schedule = some results →
        processFiles root files numWorkers' schedule' = some results' →
        printResults results = printResults results') := by
  have hcount := countP_panics_of_valid root files hvalid
  have hpot : (Pool.init files numWorkers).potential = 5 * files.length + numWorkers + 6 := by
    have hsum : ∀ n : Nat,
        ((List.replicate n WorkerState.receiving).map WorkerState.potential).sum = n := by
      intro n
      induction n with
      | zero => simp
      | succ n ih => simp [List.replicate_succ, WorkerState.potential]; omega
    simp only [Pool.potential, Pool.init, MainState.remaining, MainState.potential, hsum]
    simp
  refine ⟨?_, ?_, processFiles_returns root files numWorkers hn hcount, ?_, ?_⟩
  · intro schedule p hrun
    have := run_length root _ _ _ hrun
    omega
  · intro schedule p hrun hm
    have hinv := inv_run root files numWorkers _ _ _ (inv_init root files numWorkers) hrun
    have hp : p.panicked = none := by
      have := runSchedule_no_panic root files numWorkers hcount schedule _
        (inv_init root files numWorkers) rfl
      rwa [run_runSchedule root _ _ _ hrun] at this
    exact progress root files numWorkers hn p hinv hp hm
  · intro schedule results h
    exact (processFiles_some root files numWorkers hn schedule results h).1
  · intro numWorkers' schedule schedule' results results' hn' h h'
    have h₁ := (processFiles_some root files numWorkers hn schedule results h).1
    have h₂ := (processFiles_some root files numWorkers' hn' schedule' results' h').1
    have hperm : results.Perm results' := h₁.trans h₂.symm
    apply Totals.eq_of
    · rw [printResults_total_sum, printResults_total_sum]
      exact (hperm.map _).sum_eq
    · intro s
      rw [printResults_counts_pos, printResults_counts_pos]
      exact (hperm.map _).sum_eq

/-- C9 amended, at the three files of the scenario and two workers: an explicit
schedule makes `processFiles` return, no execution has more than 23 steps, and
every returned list is a permutation of the three per-file results. -/
theorem processFiles_worker_count_witness :
    (0 < 2 ∧ ∀ f ∈ ["access_1.json", "access_2.json", "access_3.json"],
        ∀ stream, scenarioRoot f = some stream → ∀ o ∈ decoded stream, o.inRange = true) ∧
      (processFiles scenarioRoot ["access_1.json", "access_2.json", "access_3.json"] 2
        [.main, .main, .worker 0, .worker 1, .main, .main, .main, .worker 0, .worker 0,
          .worker 0, .worker 1, .worker 1, .worker 1, .worker 0, .worker 0, .worker 0,
          .closer, .main, .main, .main, .main]).isSome = true ∧
      (∀ schedule p,
        Run scenarioRoot (Pool.init ["access_1.json", "access_2.json", "access_3.json"] 2)
          schedule p → schedule.length ≤ 23) ∧
      ∀ schedule results,
        processFiles scenarioRoot ["access_1.json", "access_2.json", "access_3.json"] 2
          schedule = some results →
        results.Perm scenarioResults := by
  have hvalid : ∀ f ∈ ["access_1.json", "access_2.json", "access_3.json"],
      ∀ stream, scenarioRoot f = some stream → ∀ o ∈ decoded stream, o.inRange = true :=
    fun f _ stream hs => scenarioRoot_valid f stream hs
  have h := processFiles_worker_count scenarioRoot
    ["access_1.json", "access_2.json", "access_3.json"] 2 (by decide) hvalid
  exact ⟨⟨by decide, hvalid⟩, by decide, h.1, h.2.2.2.1⟩

end Phase4
